import Mathlib

/-!
Verification of `backfill_media_date.py`.

The script backfills "date taken" metadata on media files in one directory.
We give a shallow embedding: the filesystem is a state (`FS`) holding the
files of the target media directory, the backup directory's contents and an
existence flag for the backup directory.  Every handler is translated into a
total Lean function returning the emitted log lines, the performed
filesystem mutations, the new state, and an optional fatal error
(a raised Python exception).  Outcomes of the two external tools
(`exiftool`, `ffmpeg`) are supplied by a `World` oracle.

Strings are modelled as `List Char` so that Python's string operations
(`rsplit`, `replace`, `endswith`, `lower`, `os.path.join`) are ordinary
recursive functions amenable to induction.
-/

/-- Python strings, modelled as lists of characters. -/
abbrev Str := List Char

/-- `os.path.join` on Windows (`REQUIRED_OS_NAME = "nt"`). -/
def winJoin (dir name : Str) : Str := dir ++ '\\' :: name

/-- `str.lower` (ASCII is all the source uses). -/
def lowerStr (s : Str) : Str := s.map Char.toLower

/-- `media_name.rsplit('.', 1)[-1]`: the part after the last dot, or the
whole string when no dot occurs. -/
def rsplitSuffix (s : Str) : Str :=
  (s.reverse.takeWhile (fun c => c != '.')).reverse

/-- Python `str.replace`, fuel-structured so the kernel can evaluate it:
replace every non-overlapping occurrence of `pat`, scanning left to right
and skipping over each replacement (CPython semantics for a non-empty
pattern).  Each step consumes at least one character, so `xs.length` fuel
always suffices; `replaceAll` below fixes the fuel and the unfolding
equations `replaceAll_nil` / `replaceAll_cons` recover the direct
recursion. -/
def replaceAllFuel (pat repl : Str) : Nat → Str → Str
  | 0, xs => xs
  | _ + 1, [] => []
  | fuel + 1, c :: rest =>
    if pat ≠ [] ∧ pat.isPrefixOf (c :: rest) then
      repl ++ replaceAllFuel pat repl fuel ((c :: rest).drop pat.length)
    else
      c :: replaceAllFuel pat repl fuel rest

/-- Python `str.replace` on character lists. -/
def replaceAll (pat repl : Str) (xs : Str) : Str :=
  replaceAllFuel pat repl xs.length xs

/-- `s.replace(pat, repl)` (Python argument order). -/
def pyReplace (s pat repl : Str) : Str := replaceAll pat repl s

/-- The processed-marker path of `process_gif` / `process_mp4`:
`media_path.replace('.' + suffix, "_immich." + suffix)`. -/
def immich_new_path (media_path suffix : Str) : Str :=
  pyReplace media_path ('.' :: suffix) ("_immich.".toList ++ suffix)

/-- The conversion target of `process_bmp`:
`media_path.replace('.' + suffix, "_bmp.png")`. -/
def bmp_new_path (media_path suffix : Str) : Str :=
  pyReplace media_path ('.' :: suffix) ("_bmp.png".toList)

/-- Resolve a full path back to a base name of the media directory:
`some name` when `p = dir ++ "\\" ++ name` with `name` free of separators,
`none` when the path points elsewhere. -/
def pathToName (dir p : Str) : Option Str :=
  if (dir ++ ['\\']).isPrefixOf p then
    let rest := p.drop (dir.length + 1)
    if rest.contains '\\' then none else some rest
  else none

-- ## Timestamps

/-- A broken-down calendar time (what `datetime.fromtimestamp` yields). -/
structure DateTimeParts where
  year : Nat
  month : Nat
  day : Nat
  hour : Nat
  minute : Nat
  second : Nat
deriving DecidableEq, Repr

/-- Civil date from a day count since 1970-01-01 (proleptic Gregorian,
Hinnant's algorithm restricted to non-negative timestamps). -/
def civilFromDays (z : Nat) : Nat × Nat × Nat :=
  let z' := z + 719468
  let era := z' / 146097
  let doe := z' % 146097
  let yoe := (doe - doe / 1460 + doe / 36524 - doe / 146096) / 365
  let y := yoe + era * 400
  let doy := doe - (365 * yoe + yoe / 4 - yoe / 100)
  let mp := (5 * doy + 2) / 153
  let d := doy - (153 * mp + 2) / 5 + 1
  let m := if mp < 10 then mp + 3 else mp - 9
  (if m ≤ 2 then y + 1 else y, m, d)

/-- `datetime.fromtimestamp` over whole seconds (the civil-time zone offset
is a fixed translation and is not modelled; sub-second parts never reach the
rendered string because the format codes stop at seconds). -/
def fromTimestamp (t : Nat) : DateTimeParts :=
  let days := t / 86400
  let secs := t % 86400
  let ymd := civilFromDays days
  ⟨ymd.1, ymd.2.1, ymd.2.2, secs / 3600, secs % 3600 / 60, secs % 60⟩

/-- Left-pad a decimal rendering with zeros to width `w`. -/
def zpad (w n : Nat) : Str :=
  let ds := Nat.toDigits 10 n
  List.replicate (w - ds.length) '0' ++ ds

/-- `datetime.strftime` restricted to the directives the source uses. -/
def strftime (d : DateTimeParts) : Str → Str
  | '%' :: c :: rest =>
    (if c = 'Y' then zpad 4 d.year
     else if c = 'm' then zpad 2 d.month
     else if c = 'd' then zpad 2 d.day
     else if c = 'H' then zpad 2 d.hour
     else if c = 'M' then zpad 2 d.minute
     else if c = 'S' then zpad 2 d.second
     else ['%', c]) ++ strftime d rest
  | c :: rest => c :: strftime d rest
  | [] => []

-- ## Constants of the source

def REQUIRED_OS_NAME : Str := "nt".toList
def BACKUP_DIR_NAME : Str := "backup_original".toList
def FFMPEG_TIME_FORMAT : Str := "%Y-%m-%dT%H:%M:%S".toList
def EXIFTOOL_BACKUP_SUFFIX : Str := "_original".toList
def EXIF_TIME_FORMAT : Str := "%Y:%m:%d %H:%M:%S".toList

-- ## Data model

/-- The slice of a parsed EXIF dictionary the script reads and writes:
`exif_dict["Exif"][piexif.ExifIFD.DateTimeOriginal]`. -/
structure ExifData where
  dateTimeOriginal : Option Str := none
deriving DecidableEq, Repr

/-- `DEFAULT_EXIF`: all IFDs empty, so no `DateTimeOriginal`. -/
def DEFAULT_EXIF : ExifData := {}

/-- One entry of `ffmpeg.probe(path)["streams"]`: `none` when the stream has
no `"tags"` key, otherwise the list of tag keys present. -/
structure MStream where
  tags : Option (List Str) := none
deriving DecidableEq, Repr

/-- Per-file metadata as the in-process libraries expose it: the parsed EXIF
block (`none` = absent or corrupted, `piexif.load` raises), the PNG textual
info dictionary (`img.info`), the probed video streams, and the XMP field
`exiftool` writes. -/
structure MediaContent where
  exif : Option ExifData := none
  info : List (Str × Str) := []
  streams : List MStream := []
  xmpDateTimeOriginal : Option Str := none
deriving DecidableEq, Repr

/-- A file of the media directory: base name, metadata content, and the
`os.path.getctime` / `os.path.getmtime` stat results in whole seconds. -/
structure MFile where
  name : Str
  content : MediaContent
  ctime : Nat
  mtime : Nat
deriving DecidableEq, Repr

/-- The filesystem state the run touches: files of the media directory (in
`os.listdir` order), base names of files inside the backup directory,
whether the backup directory exists, and paths of files the run created
outside the media directory (only reachable when a replaced path escapes
the directory; tracked by path only). -/
structure FS where
  media : List MFile
  backupFiles : List Str
  backupDirExists : Bool
  outside : List Str := []
deriving DecidableEq, Repr

/-- Outcomes of the two external subprocess tools, keyed by the path they
are invoked on. -/
structure World where
  exiftoolOk : Str → Bool
  ffmpegOk : Str → Bool

inductive LogLevel
  | debug
  | info
  | error
deriving DecidableEq, Repr

/-- One logger call: severity and rendered message. -/
structure LogLine where
  level : LogLevel
  msg : Str
deriving DecidableEq, Repr

/-- Every filesystem mutation a run can perform. -/
inductive Mutation
  | mkdirBackup
  | rewrite (path : Str)
  | create (path : Str)
  | rename (old new : Str)
  | moveToBackup (path : Str)
deriving DecidableEq, Repr

/-- A raised Python exception, aborting the run. -/
inductive Err
  | wrongOS
  | unsupportedSuffix (sfx name : Str)
  | fileNotFound (path : Str)
  | exiftoolFailed (path : Str)
  | ffmpegFailed (path : Str)
  | moveCollision (name : Str)
  | renameCollision (path : Str)
deriving DecidableEq, Repr

/-- Result of (a part of) a run: the logs it emitted, the mutations it
performed, the state it left behind, and the exception that aborted it,
if any. -/
structure RunOut where
  logs : List LogLine
  muts : List Mutation
  fs : FS
  err : Option Err
deriving DecidableEq, Repr

-- ## Filesystem primitives

/-- Open/stat a file of the media directory by base name. -/
def FS.lookup (fs : FS) (name : Str) : Option MFile :=
  fs.media.find? (fun f => f.name == name)

/-- Rewrite a file in place (`img.save(media_path, ...)`). -/
def FS.rewriteContent (fs : FS) (name : Str) (c : MediaContent) : FS :=
  { fs with media := fs.media.map (fun f => if f.name == name then { f with content := c } else f) }

/-- Create a file at a full path, silently overwriting an existing one
(`PIL.Image.save` on a fresh path, `ffmpeg ... .overwrite_output()`).
Timestamps of the new file are never statted again by the script, so they
are carried over from the source file. -/
def FS.createOrReplace (fs : FS) (dir p : Str) (c : MediaContent) (ct mt : Nat) : FS :=
  match pathToName dir p with
  | some n =>
    if fs.media.any (fun f => f.name == n) then
      { fs with media := fs.media.map (fun f => if f.name == n then { f with content := c } else f) }
    else
      { fs with media := fs.media ++ [⟨n, c, ct, mt⟩] }
  | none => { fs with outside := fs.outside ++ [p] }

/-- `shutil.move(path, backup_dir)`: fails (`none`) when a file of the same
base name already sits in the backup directory, otherwise removes the file
from the media directory and records it in the backup. -/
def FS.moveToBackup (fs : FS) (n : Str) : Option FS :=
  if fs.backupFiles.contains n then none
  else some { fs with media := fs.media.filter (fun f => f.name != n),
                      backupFiles := fs.backupFiles ++ [n] }

/-- `os.rename(old, new)` on Windows: fails (`none`) when a different file
already exists at the target; renaming a file onto its own path is a no-op;
a target outside the media directory leaves the directory. -/
def FS.renameTo (fs : FS) (dir oldName newPath : Str) : Option FS :=
  match pathToName dir newPath with
  | some n =>
    if n == oldName then some fs
    else if fs.media.any (fun f => f.name == n) then none
    else some { fs with media := fs.media.map (fun f => if f.name == oldName then { f with name := n } else f) }
  | none =>
    some { fs with media := fs.media.filter (fun f => f.name != oldName),
                   outside := fs.outside ++ [newPath] }

-- ## The timestamp oracle

/-- `get_earliest_date_str` (source lines 196-203): the earlier of the two
stat times, rendered with `strftime`. -/
def get_earliest_date_str (f : MFile) (time_format : Str) : Str :=
  let date_c := f.ctime
  let date_m := f.mtime
  let date_approx := if date_c < date_m then date_c else date_m
  strftime (fromTimestamp date_approx) time_format

-- ## Format handlers

/-- `process_jpg` (source lines 74-108).  `Image.open` happens in both
modes; a failing `piexif.load` (absent or corrupted EXIF) yields
`DEFAULT_EXIF`; presence of `DateTimeOriginal` short-circuits; otherwise
the field is assigned and, in a real run only, the image is rewritten in
place.  The interactive `quality="keep"` fallback re-saves the same bytes
at quality 95 and is folded into the single rewrite. -/
def process_jpg (real_run : Bool) (dir media_path : Str) (fs : FS) : RunOut :=
  match pathToName dir media_path >>= fs.lookup with
  | none => ⟨[], [], fs, some (.fileNotFound media_path)⟩
  | some f =>
    let parsed := f.content.exif
    let logs1 : List LogLine :=
      match parsed with
      | some _ => []
      | none => [⟨.info, "[No Exif metadata or corrupted] ".toList ++ media_path⟩]
    let exif_dict := match parsed with
      | some d => d
      | none => DEFAULT_EXIF
    match exif_dict.dateTimeOriginal with
    | some _ =>
      ⟨logs1 ++ [⟨.debug, "[Date Taken is already present (JPG)] ".toList ++ media_path⟩], [], fs, none⟩
    | none =>
      let datetime_str := get_earliest_date_str f EXIF_TIME_FORMAT
      let logs2 := logs1 ++
        [⟨.info, "[Assign Date Taken (JPG)] ".toList ++ media_path ++ " ".toList ++ datetime_str⟩]
      if real_run then
        ⟨logs2, [.rewrite media_path],
          fs.rewriteContent f.name { f.content with exif := some { exif_dict with dateTimeOriginal := some datetime_str } },
          none⟩
      else
        ⟨logs2, [], fs, none⟩

/-- `process_png` (source lines 111-130): skip when a `"Creation Time"`
text field is present, otherwise set the two text fields and, in a real
run, rewrite the file in place. -/
def process_png (real_run : Bool) (dir media_path datetime_str : Str) (fs : FS) : RunOut :=
  match pathToName dir media_path >>= fs.lookup with
  | none => ⟨[], [], fs, some (.fileNotFound media_path)⟩
  | some f =>
    if f.content.info.any (fun kv => kv.1 == "Creation Time".toList) then
      ⟨[⟨.debug, "[Date Taken is already present (PNG)] ".toList ++ media_path⟩], [], fs, none⟩
    else
      let logs : List LogLine :=
        [⟨.info, "[Assign Date Taken (PNG)] ".toList ++ media_path ++ " ".toList ++ datetime_str⟩]
      if real_run then
        ⟨logs, [.rewrite media_path],
          fs.rewriteContent f.name
            { f.content with info := [("Creation Time".toList, datetime_str),
                                      ("Date Time Original".toList, datetime_str)] },
          none⟩
      else
        ⟨logs, [], fs, none⟩

/-- `process_bmp` (source lines 133-143): log the conversion, and only in a
real run convert to a fresh PNG at the replaced path, move the original to
the backup directory, then delegate to `process_png` on the new file. -/
def process_bmp (real_run : Bool) (dir media_path datetime_str : Str) (backup_dir suffix : Str) (fs : FS) : RunOut :=
  let new_media_path := bmp_new_path media_path suffix
  let logs : List LogLine :=
    [⟨.info, "[Convert BMP to PNG)] ".toList ++ media_path ++ " ".toList ++ new_media_path⟩]
  if real_run then
    match pathToName dir media_path >>= fs.lookup with
    | none => ⟨logs, [], fs, some (.fileNotFound media_path)⟩
    | some f =>
      let fs1 := fs.createOrReplace dir new_media_path {} f.ctime f.mtime
      match fs1.moveToBackup f.name with
      | none => ⟨logs, [.create new_media_path], fs1, some (.moveCollision f.name)⟩
      | some fs2 =>
        let r := process_png real_run dir new_media_path datetime_str fs2
        ⟨logs ++ r.logs, [.create new_media_path, .moveToBackup media_path] ++ r.muts, r.fs, r.err⟩
  else
    ⟨logs, [], fs, none⟩

/-- `process_gif` (source lines 146-160): skip on the processed-marker name;
otherwise stat, log, and in a real run let `exiftool` set the XMP field in
place (leaving a `*_original` backup copy), rename to the marker path, and
move the backup copy into the backup directory. -/
def process_gif (real_run : Bool) (world : World) (dir media_path backup_dir suffix : Str) (fs : FS) : RunOut :=
  if ("_immich.".toList ++ suffix).isSuffixOf media_path then
    ⟨[⟨.info, "[Skip already-processed (GIF)] ".toList ++ media_path⟩], [], fs, none⟩
  else
    match pathToName dir media_path >>= fs.lookup with
    | none => ⟨[], [], fs, some (.fileNotFound media_path)⟩
    | some f =>
      let datetime_str := get_earliest_date_str f EXIF_TIME_FORMAT
      let new_media_path := immich_new_path media_path suffix
      let logs : List LogLine :=
        [⟨.info, "[Assign XMP:DateTimeOriginal to GIF)] ".toList ++ new_media_path ++ " ".toList ++ datetime_str⟩]
      if real_run then
        if world.exiftoolOk media_path then
          let fs1 := fs.rewriteContent f.name { f.content with xmpDateTimeOriginal := some datetime_str }
          let muts1 : List Mutation :=
            [.rewrite media_path, .create (media_path ++ EXIFTOOL_BACKUP_SUFFIX)]
          match fs1.renameTo dir f.name new_media_path with
          | none => ⟨logs, muts1, fs1, some (.renameCollision new_media_path)⟩
          | some fs2 =>
            let muts2 := muts1 ++ [.rename media_path new_media_path]
            match fs2.moveToBackup (f.name ++ EXIFTOOL_BACKUP_SUFFIX) with
            | none => ⟨logs, muts2, fs2, some (.moveCollision (f.name ++ EXIFTOOL_BACKUP_SUFFIX))⟩
            | some fs3 =>
              ⟨logs, muts2 ++ [.moveToBackup (media_path ++ EXIFTOOL_BACKUP_SUFFIX)], fs3, none⟩
        else
          ⟨logs, [], fs, some (.exiftoolFailed media_path)⟩
      else
        ⟨logs, [], fs, none⟩

/-- The fixed output options of the `ffmpeg` re-mux (source lines 184-192):
video stream copied, audio transcoded to AAC, `creation_time` injected. -/
structure FfmpegArgs where
  input : Str
  output : Str
  vcodec : Str
  acodec : Str
  metadata : Str
deriving DecidableEq, Repr

def mp4_output_args (media_path new_media_path datetime_str : Str) : FfmpegArgs :=
  ⟨media_path, new_media_path, "copy".toList, "aac".toList, "creation_time=".toList ++ datetime_str⟩

/-- `process_mp4` (source lines 163-193): probe the streams; skip silently
when every stream carries a `creation_time` tag; otherwise log and, in a
real run, re-mux into the marker path (the `creation_time` metadata
propagates into every output stream's tags, as the mp4 muxer writes the
track headers from it) and move the original to the backup directory after
the re-mux succeeded. -/
def process_mp4 (real_run : Bool) (world : World) (dir media_path backup_dir suffix : Str) (fs : FS) : RunOut :=
  match pathToName dir media_path >>= fs.lookup with
  | none => ⟨[], [], fs, some (.fileNotFound media_path)⟩
  | some f =>
    let has_creation_time := f.content.streams.all (fun s =>
      match s.tags with
      | none => false
      | some ts => ts.contains "creation_time".toList)
    if has_creation_time then
      ⟨[], [], fs, none⟩
    else
      let new_media_path := immich_new_path media_path suffix
      let datetime_str := get_earliest_date_str f FFMPEG_TIME_FORMAT
      let args := mp4_output_args media_path new_media_path datetime_str
      let logs : List LogLine :=
        [⟨.info, "[Assign Media Created (MP4)] ".toList ++ new_media_path ++ " ".toList ++ datetime_str⟩]
      if real_run then
        if world.ffmpegOk args.output then
          let outStreams := f.content.streams.map (fun s =>
            { s with tags := some (match s.tags with
                | none => ["creation_time".toList]
                | some ts => if ts.contains "creation_time".toList then ts else ts ++ ["creation_time".toList]) })
          let fs1 := fs.createOrReplace dir new_media_path { f.content with streams := outStreams } f.ctime f.mtime
          match fs1.moveToBackup f.name with
          | none => ⟨logs, [.create new_media_path], fs1, some (.moveCollision f.name)⟩
          | some fs2 => ⟨logs, [.create new_media_path, .moveToBackup media_path], fs2, none⟩
        else
          ⟨logs, [], fs, some (.ffmpegFailed new_media_path)⟩
      else
        ⟨logs, [], fs, none⟩

-- ## Dispatcher and run controller

def dashes : Str := List.replicate 20 '-'

/-- One iteration of the `for media_name in all_media_names` loop of `main`
(source lines 44-71): the per-file debug header, then the extension match.
The source's `match` statement over string literals is rendered as the
equivalent chain of equality tests. -/
def processOne (real_run : Bool) (world : World) (dir backup_dir : Str) (media_name : Str) (fs : FS) : RunOut :=
  let header : LogLine := ⟨.debug, dashes ++ " [Processing] ".toList ++ media_name ++ " ".toList ++ dashes⟩
  let media_path := winJoin dir media_name
  let sfx := rsplitSuffix media_name
  let s := lowerStr sfx
  let r : RunOut :=
    if s == "jpg".toList || s == "jpeg".toList then
      process_jpg real_run dir media_path fs
    else if s == "png".toList then
      match pathToName dir media_path >>= fs.lookup with
      | none => ⟨[], [], fs, some (.fileNotFound media_path)⟩
      | some f =>
        let datetime_str := get_earliest_date_str f EXIF_TIME_FORMAT
        process_png real_run dir media_path datetime_str fs
    else if s == "gif".toList then
      process_gif real_run world dir media_path backup_dir sfx fs
    else if s == "bmp".toList then
      match pathToName dir media_path >>= fs.lookup with
      | none => ⟨[], [], fs, some (.fileNotFound media_path)⟩
      | some f =>
        let datetime_str := get_earliest_date_str f EXIF_TIME_FORMAT
        process_bmp real_run dir media_path datetime_str backup_dir sfx fs
    else if s == "mp4".toList || s == "m4v".toList then
      process_mp4 real_run world dir media_path backup_dir sfx fs
    else if s == "mov".toList || s == "tif".toList || s == "heic".toList || s == "webp".toList then
      ⟨[⟨.debug, "Suffix .".toList ++ sfx ++ " seems fine: ".toList ++ media_name⟩], [], fs, none⟩
    else
      ⟨[], [], fs, some (.unsupportedSuffix sfx media_name)⟩
  { r with logs := header :: r.logs }

/-- The loop of `main` over the snapshot of `os.listdir`: a raised exception
aborts the remainder. -/
def runFiles (real_run : Bool) (world : World) (dir backup_dir : Str) : List Str → FS → RunOut
  | [], fs => ⟨[], [], fs, none⟩
  | n :: rest, fs =>
    let r := processOne real_run world dir backup_dir n fs
    match r.err with
    | some e => ⟨r.logs, r.muts, r.fs, some e⟩
    | none =>
      let r2 := runFiles real_run world dir backup_dir rest r.fs
      ⟨r.logs ++ r2.logs, r.muts ++ r2.muts, r2.fs, r2.err⟩

/-- `main` (source lines 23-71): refuse to run off Windows; ensure the
backup directory (in both modes); list the media directory (the listing
also returns `BACKUP_DIR_NAME`, which line 43 removes again, so the
snapshot is exactly the media files); loop.  Argument parsing and logger
setup are configuration plumbing outside the model: `real_run`, the
directory and the oracle are taken directly. -/
def mainRun (os_name : Str) (real_run : Bool) (world : World) (media_dir : Str) (fs : FS) : RunOut :=
  if os_name == REQUIRED_OS_NAME then
    let backup_dir := winJoin media_dir BACKUP_DIR_NAME
    let setup : List LogLine × List Mutation × FS :=
      if fs.backupDirExists then ([], [], fs)
      else ([⟨.debug, "Create backup directory: ".toList ++ backup_dir⟩],
            [.mkdirBackup], { fs with backupDirExists := true })
    let all_media_names := setup.2.2.media.map (fun f => f.name)
    let r := runFiles real_run world media_dir backup_dir all_media_names setup.2.2
    ⟨setup.1 ++ r.logs, setup.2.1 ++ r.muts, r.fs, r.err⟩
  else
    ⟨[], [], fs, some .wrongOS⟩

-- ## Concrete sample data (for witnesses and counterexamples)

/-- A world in which both external tools always succeed. -/
def trueWorld : World := ⟨fun _ => true, fun _ => true⟩

/-- A media directory path without a dot, as a drive-rooted Windows
directory normally is. -/
def sampleDir : Str := "C:\\media".toList

/-- `min(T_c, T_m)` rendered by the claim's words: the image/EXIF pattern
`YYYY:MM:DD HH:MM:SS`.  Stated from the spec, to be compared with
`get_earliest_date_str`. -/
def specImagePattern (d : DateTimeParts) : Str :=
  zpad 4 d.year ++ ":".toList ++ zpad 2 d.month ++ ":".toList ++ zpad 2 d.day
    ++ " ".toList ++ zpad 2 d.hour ++ ":".toList ++ zpad 2 d.minute ++ ":".toList ++ zpad 2 d.second

/-- `min(T_c, T_m)` rendered by the claim's words: the video pattern
`YYYY-MM-DDTHH:MM:SS`.  Stated from the spec. -/
def specVideoPattern (d : DateTimeParts) : Str :=
  zpad 4 d.year ++ "-".toList ++ zpad 2 d.month ++ "-".toList ++ zpad 2 d.day
    ++ "T".toList ++ zpad 2 d.hour ++ ":".toList ++ zpad 2 d.minute ++ ":".toList ++ zpad 2 d.second

-- ## Predicates for the run-level theorems

/-- The detection check of the handler responsible for this file succeeds,
so the handler returns without mutating: present `DateTimeOriginal` for
JPEG, present `"Creation Time"` text field for PNG, the processed-marker
file name for GIF, a `creation_time` tag on every stream for MP4/M4V, and
always for the pass-through formats.  A BMP is never skippable (it is
always converted), and an unsupported extension aborts. -/
def Skippable (dir : Str) (f : MFile) : Prop :=
  if lowerStr (rsplitSuffix f.name) = "jpg".toList ∨
      lowerStr (rsplitSuffix f.name) = "jpeg".toList then
    ∃ d v, f.content.exif = some d ∧ d.dateTimeOriginal = some v
  else if lowerStr (rsplitSuffix f.name) = "png".toList then
    (f.content.info.any fun kv => kv.1 == "Creation Time".toList) = true
  else if lowerStr (rsplitSuffix f.name) = "gif".toList then
    (("_immich.".toList ++ rsplitSuffix f.name).isSuffixOf (winJoin dir f.name)) = true
  else if lowerStr (rsplitSuffix f.name) = "bmp".toList then False
  else if lowerStr (rsplitSuffix f.name) = "mp4".toList ∨
      lowerStr (rsplitSuffix f.name) = "m4v".toList then
    (f.content.streams.all fun st =>
      match st.tags with
      | none => false
      | some ts => ts.contains "creation_time".toList) = true
  else if lowerStr (rsplitSuffix f.name) = "mov".toList ∨
      lowerStr (rsplitSuffix f.name) = "tif".toList ∨
      lowerStr (rsplitSuffix f.name) = "heic".toList ∨
      lowerStr (rsplitSuffix f.name) = "webp".toList then
    True
  else False

/-- A file the run-level invariants can carry: dotted, separator-free base
name whose handler will skip it. -/
def GoodEntry (dir : Str) (f : MFile) : Prop :=
  '.' ∈ f.name ∧ '\\' ∉ f.name ∧ Skippable dir f

/-- Well-formedness of an initial state for the run-level theorems: a
directory path without a dot (as a drive-rooted Windows directory is) and
distinct, separator-free, dotted base names. -/
def WellFormedDir (dir : Str) (fs : FS) : Prop :=
  (∀ c ∈ dir, c ≠ '.') ∧ (fs.media.map (fun f => f.name)).Nodup ∧
    ∀ f ∈ fs.media, '.' ∈ f.name ∧ '\\' ∉ f.name

/-- The invariant a real run maintains across the listing loop: the backup
directory exists, base names are distinct, and every file of the directory
is a dotted, separator-free base name that the handler responsible for it
already skips — except for files whose name is still in the unprocessed
remainder of the listing snapshot. -/
def RunInv (dir : Str) (remaining : List Str) (fs : FS) : Prop :=
  fs.backupDirExists = true ∧
  (fs.media.map (fun f => f.name)).Nodup ∧
  ∀ g ∈ fs.media, '.' ∈ g.name ∧ '\\' ∉ g.name ∧ (Skippable dir g ∨ g.name ∈ remaining)

-- ## Lemmas: the fuel presentation of `replaceAll`

theorem replaceAllFuel_nil (pat repl : Str) (f : Nat) : replaceAllFuel pat repl f [] = [] := by
  cases f <;> rfl

theorem replaceAllFuel_congr (pat repl : Str) :
    ∀ f1 : Nat, ∀ xs : Str, ∀ f2 : Nat, xs.length ≤ f1 → xs.length ≤ f2 →
      replaceAllFuel pat repl f1 xs = replaceAllFuel pat repl f2 xs := by
  intro f1
  induction f1 with
  | zero =>
    intro xs f2 h1 _
    have hx : xs = [] := List.eq_nil_of_length_eq_zero (Nat.le_zero.mp h1)
    subst hx
    rw [replaceAllFuel_nil, replaceAllFuel_nil]
  | succ f ih =>
    intro xs f2 h1 h2
    cases xs with
    | nil => rw [replaceAllFuel_nil, replaceAllFuel_nil]
    | cons c rest =>
      cases f2 with
      | zero => simp at h2
      | succ f2' =>
        simp only [replaceAllFuel]
        by_cases hc : pat ≠ [] ∧ pat.isPrefixOf (c :: rest)
        · rw [if_pos hc, if_pos hc]
          have hp : 0 < pat.length := List.length_pos.mpr hc.1
          simp only [List.length_cons] at h1 h2
          congr 1
          exact ih _ _ (by simp only [List.length_drop, List.length_cons]; omega)
            (by simp only [List.length_drop, List.length_cons]; omega)
        · rw [if_neg hc, if_neg hc]
          simp only [List.length_cons] at h1 h2
          congr 1
          exact ih _ _ (by omega) (by omega)

theorem replaceAll_nil (pat repl : Str) : replaceAll pat repl [] = [] := rfl

theorem replaceAll_cons (pat repl : Str) (c : Char) (rest : Str) :
    replaceAll pat repl (c :: rest) =
      if pat ≠ [] ∧ pat.isPrefixOf (c :: rest) then
        repl ++ replaceAll pat repl ((c :: rest).drop pat.length)
      else
        c :: replaceAll pat repl rest := by
  show replaceAllFuel pat repl (rest.length + 1) (c :: rest) = _
  simp only [replaceAllFuel]
  by_cases hc : pat ≠ [] ∧ pat.isPrefixOf (c :: rest)
  · rw [if_pos hc, if_pos hc]
    have hp : 0 < pat.length := List.length_pos.mpr hc.1
    congr 1
    exact replaceAllFuel_congr pat repl _ _ _
      (by simp only [List.length_drop, List.length_cons]; omega)
      (Nat.le_refl _)
  · rw [if_neg hc, if_neg hc]
    rfl

-- ## Lemmas: occurrence structure of `replaceAll`

theorem replaceAll_clean_append (pat repl : Str) (h0 : Char) (hh : pat.head? = some h0) :
    ∀ pre xs : Str, (∀ a ∈ pre, a ≠ h0) →
      replaceAll pat repl (pre ++ xs) = pre ++ replaceAll pat repl xs := by
  intro pre
  induction pre with
  | nil => intro xs _; rfl
  | cons c pre' ih =>
    intro xs hpre
    have hne : ¬ (pat ≠ [] ∧ pat.isPrefixOf (c :: (pre' ++ xs))) := by
      rintro ⟨h1, h2⟩
      cases pat with
      | nil => exact h1 rfl
      | cons p0 pt =>
        simp only [List.head?] at hh
        have hp0 : p0 = h0 := by injection hh
        simp only [List.isPrefixOf, Bool.and_eq_true, beq_iff_eq] at h2
        exact hpre c (List.mem_cons_self c pre') (by rw [← h2.1, hp0])
    rw [List.cons_append, replaceAll_cons, if_neg hne,
      ih xs (fun a ha => hpre a (List.mem_cons_of_mem c ha))]
    rfl

theorem mem_replaceAll (pat repl : Str) :
    ∀ n : Nat, ∀ xs : Str, xs.length ≤ n →
      ∀ a ∈ replaceAll pat repl xs, a ∈ xs ∨ a ∈ repl := by
  intro n
  induction n with
  | zero =>
    intro xs h a ha
    have hx : xs = [] := List.eq_nil_of_length_eq_zero (Nat.le_zero.mp h)
    subst hx
    simp [replaceAll_nil] at ha
  | succ n ih =>
    intro xs h a ha
    cases xs with
    | nil => simp [replaceAll_nil] at ha
    | cons c rest =>
      rw [replaceAll_cons] at ha
      by_cases hc : pat ≠ [] ∧ pat.isPrefixOf (c :: rest)
      · rw [if_pos hc] at ha
        rcases List.mem_append.mp ha with hr | hrec
        · exact Or.inr hr
        · have hp : 0 < pat.length := List.length_pos.mpr hc.1
          simp only [List.length_cons] at h
          rcases ih _ (by simp only [List.length_drop, List.length_cons]; omega) a hrec with hx | hr
          · exact Or.inl (List.mem_of_mem_drop hx)
          · exact Or.inr hr
      · rw [if_neg hc] at ha
        rcases List.mem_cons.mp ha with rfl | hrec
        · exact Or.inl (List.mem_cons_self a rest)
        · simp only [List.length_cons] at h
          rcases ih _ (by omega) a hrec with hx | hr
          · exact Or.inl (List.mem_cons_of_mem c hx)
          · exact Or.inr hr

theorem replaceAll_append_pat (sfx repl : Str) (hs : '.' ∉ sfx) :
    ∀ n : Nat, ∀ stem : Str, stem.length ≤ n →
      ∃ ys, replaceAll ('.' :: sfx) repl (stem ++ '.' :: sfx) = ys ++ repl := by
  intro n
  induction n with
  | zero =>
    intro stem h
    have hx : stem = [] := List.eq_nil_of_length_eq_zero (Nat.le_zero.mp h)
    subst hx
    refine ⟨[], ?_⟩
    rw [List.nil_append, replaceAll_cons,
      if_pos ⟨List.cons_ne_nil _ _, (List.isPrefixOf_iff_prefix).mpr List.prefix_rfl⟩]
    rw [show (('.' :: sfx).drop ('.' :: sfx).length) = [] from List.drop_length _]
    rw [replaceAll_nil, List.append_nil, List.nil_append]
  | succ n ih =>
    intro stem h
    cases stem with
    | nil => exact ih [] (Nat.zero_le n)
    | cons c s =>
      by_cases hc : ('.' :: sfx).isPrefixOf (c :: (s ++ '.' :: sfx))
      · rw [List.cons_append, replaceAll_cons, if_pos ⟨List.cons_ne_nil _ _, hc⟩]
        by_cases hlen : ('.' :: sfx).length ≤ s.length + 1
        · have hdrop : (c :: (s ++ '.' :: sfx)).drop ('.' :: sfx).length
              = ((c :: s).drop ('.' :: sfx).length) ++ '.' :: sfx := by
            rw [← List.cons_append, List.drop_append_of_le_length (by simpa using hlen)]
          rw [hdrop]
          obtain ⟨ys, hy⟩ := ih ((c :: s).drop ('.' :: sfx).length) (by
            have e1 : (c :: s).length = s.length + 1 := by simp
            have e2 : ('.' :: sfx).length = sfx.length + 1 := by simp
            simp only [List.length_drop]
            omega)
          refine ⟨repl ++ ys, ?_⟩
          rw [hy, List.append_assoc]
        · exfalso
          have hp : ('.' :: sfx) <+: ((c :: s) ++ '.' :: sfx) := by
            rw [List.cons_append]
            exact (List.isPrefixOf_iff_prefix).mp hc
          have hcs : (c :: s) <+: ((c :: s) ++ '.' :: sfx) := List.prefix_append _ _
          have hcsp : (c :: s) <+: ('.' :: sfx) :=
            List.prefix_of_prefix_length_le hcs hp
              (by simp only [List.length_cons] at hlen ⊢; omega)
          obtain ⟨t, ht⟩ := hcsp
          have htne : t ≠ [] := by
            intro h0
            rw [h0, List.append_nil] at ht
            have := congrArg List.length ht
            simp only [List.length_cons] at this hlen
            omega
          rw [← ht] at hp
          have htp : t <+: ((c :: s) ++ t) := (List.prefix_append_right_inj (c :: s)).mp
            (by rw [ht] at hp ⊢; exact hp)
          cases t with
          | nil => exact htne rfl
          | cons t0 ts =>
            rw [List.cons_append] at htp
            have ht0 : t0 = c := (List.cons_prefix_cons.mp htp).1
            have hceq : '.' = c := by
              rw [List.cons_append] at ht
              injection ht.symm
            have hmem : t0 ∈ sfx := by
              have hsfx : sfx = s ++ t0 :: ts := by
                rw [List.cons_append] at ht
                injection ht with _ h2
                exact h2.symm
              rw [hsfx]
              exact List.mem_append.mpr (Or.inr (List.mem_cons_self t0 ts))
            rw [ht0, ← hceq] at hmem
            exact hs hmem
      · rw [List.cons_append, replaceAll_cons,
          if_neg (by rintro ⟨_, hpre⟩; exact hc hpre)]
        obtain ⟨ys, hy⟩ := ih s (by simp only [List.length_cons] at h; omega)
        exact ⟨c :: ys, by rw [hy, List.cons_append]⟩

theorem replaceAll_single_occurrence (pat repl : Str) (hp : pat ≠ []) :
    ∀ stem : Str,
      (∀ i, i < stem.length → ¬ (pat.isPrefixOf ((stem ++ pat).drop i) = true)) →
      replaceAll pat repl (stem ++ pat) = stem ++ repl := by
  intro stem
  induction stem with
  | nil =>
    intro _
    cases pat with
    | nil => exact absurd rfl hp
    | cons p0 pt =>
      rw [List.nil_append, replaceAll_cons,
        if_pos ⟨hp, (List.isPrefixOf_iff_prefix).mpr List.prefix_rfl⟩]
      rw [show ((p0 :: pt).drop (p0 :: pt).length) = [] from List.drop_length _]
      rw [replaceAll_nil, List.append_nil, List.nil_append]
  | cons c s ih =>
    intro h
    have h0 := h 0 (by simp)
    rw [List.cons_append, replaceAll_cons,
      if_neg (by rintro ⟨_, hpre⟩; exact h0 (by simpa using hpre))]
    rw [ih (fun i hi => by
      have := h (i + 1) (by simp only [List.length_cons]; omega)
      simpa using this)]
    rfl

-- ## Lemmas: suffix extraction

theorem dropWhile_head_false (p : Char → Bool) :
    ∀ l : Str, ∀ y ys, l.dropWhile p = y :: ys → p y = false := by
  intro l
  induction l with
  | nil => intro y ys h; simp [List.dropWhile] at h
  | cons a l' ih =>
    intro y ys h
    rw [List.dropWhile_cons] at h
    by_cases hp : p a
    · rw [if_pos hp] at h; exact ih y ys h
    · rw [if_neg hp] at h
      injection h with h1 _
      rw [← h1]
      exact Bool.not_eq_true _ ▸ (by simpa using hp)

theorem takeWhile_append_stop (p : Char → Bool) :
    ∀ xs : Str, ∀ y : Char, ∀ ys : Str, (∀ x ∈ xs, p x = true) → p y = false →
      (xs ++ y :: ys).takeWhile p = xs := by
  intro xs
  induction xs with
  | nil => intro y ys _ hy; simp [List.takeWhile_cons, hy]
  | cons a l ih =>
    intro y ys hx hy
    rw [List.cons_append, List.takeWhile_cons, if_pos (hx a (List.mem_cons_self a l))]
    rw [ih y ys (fun x hxm => hx x (List.mem_cons_of_mem a hxm)) hy]

theorem rsplitSuffix_append_dot (zs sfx : Str) (hs : '.' ∉ sfx) :
    rsplitSuffix (zs ++ '.' :: sfx) = sfx := by
  unfold rsplitSuffix
  rw [List.reverse_append, List.reverse_cons, List.append_assoc, List.singleton_append]
  rw [takeWhile_append_stop _ _ _ _
    (fun x hx => by
      have : x ∈ sfx := List.mem_reverse.mp hx
      simp only [bne_iff_ne, ne_eq]
      intro he; rw [he] at this; exact hs this)
    (by simp)]
  exact List.reverse_reverse sfx

theorem name_decomp (n : Str) (hd : '.' ∈ n) :
    ∃ stem, n = stem ++ '.' :: rsplitSuffix n ∧ '.' ∉ rsplitSuffix n := by
  have hsplit := (List.takeWhile_append_dropWhile
    (p := fun c => c != '.') (l := n.reverse)).symm
  set t := n.reverse.takeWhile (fun c => c != '.') with ht
  set d := n.reverse.dropWhile (fun c => c != '.') with hdd
  have hr : rsplitSuffix n = t.reverse := by rw [ht]; rfl
  have hdne : d ≠ [] := by
    intro h0
    have hnt : n.reverse = t := by rw [hsplit, h0, List.append_nil]
    have hdot : '.' ∈ n.reverse := List.mem_reverse.mpr hd
    rw [hnt] at hdot
    have := List.mem_takeWhile_imp hdot
    simp at this
  obtain ⟨d0, d', hd0⟩ := List.exists_cons_of_ne_nil hdne
  have hpd0 : (d0 != '.') = false :=
    dropWhile_head_false (fun c => c != '.') n.reverse d0 d' (by rw [← hdd]; exact hd0)
  have hd0eq : d0 = '.' := by simpa using hpd0
  refine ⟨d'.reverse, ?_, ?_⟩
  · rw [hr]
    calc n = n.reverse.reverse := (List.reverse_reverse n).symm
    _ = (t ++ d).reverse := by rw [← hsplit]
    _ = d.reverse ++ t.reverse := by rw [List.reverse_append]
    _ = (d0 :: d').reverse ++ t.reverse := by rw [← hd0]
    _ = (d'.reverse ++ [d0]) ++ t.reverse := by rw [List.reverse_cons]
    _ = d'.reverse ++ '.' :: t.reverse := by
        rw [hd0eq, List.append_assoc, List.singleton_append]
  · rw [hr]
    intro hmem
    have hmt : '.' ∈ t := List.mem_reverse.mp hmem
    have := List.mem_takeWhile_imp hmt
    simp at this

-- ## Lemmas: rendering of the two time formats

theorem strftime_exif (d : DateTimeParts) : strftime d EXIF_TIME_FORMAT = specImagePattern d := by
  show strftime d
    ('%':: 'Y':: ':':: '%':: 'm':: ':':: '%':: 'd':: ' ':: '%':: 'H':: ':':: '%':: 'M':: ':':: '%':: 'S'::[]) = _
  simp [strftime, specImagePattern]

theorem strftime_ffmpeg (d : DateTimeParts) : strftime d FFMPEG_TIME_FORMAT = specVideoPattern d := by
  show strftime d
    ('%':: 'Y':: '-':: '%':: 'm':: '-':: '%':: 'd':: 'T':: '%':: 'H':: ':':: '%':: 'M':: ':':: '%':: 'S'::[]) = _
  simp [strftime, specVideoPattern]

-- ## Lemmas: dry runs perform no mutations

theorem process_jpg_dry_muts (dir media_path : Str) (fs : FS) :
    (process_jpg false dir media_path fs).muts = [] := by
  unfold process_jpg
  cases hx : pathToName dir media_path >>= fs.lookup with
  | none => simp [hx]
  | some f =>
    cases he : f.content.exif with
    | none => simp [hx, he, DEFAULT_EXIF]
    | some d =>
      cases hdto : d.dateTimeOriginal with
      | none => simp [hx, he, hdto]
      | some v => simp [hx, he, hdto]

theorem process_png_dry_muts (dir media_path datetime_str : Str) (fs : FS) :
    (process_png false dir media_path datetime_str fs).muts = [] := by
  unfold process_png
  cases hx : pathToName dir media_path >>= fs.lookup with
  | none => simp only [hx]
  | some f =>
    simp only [hx]
    by_cases hct : (f.content.info.any fun kv => kv.1 == "Creation Time".toList) = true
    · rw [if_pos hct]
    · rw [if_neg hct, if_neg Bool.false_ne_true]

theorem process_bmp_dry_muts (dir media_path datetime_str backup_dir suffix : Str) (fs : FS) :
    (process_bmp false dir media_path datetime_str backup_dir suffix fs).muts = [] := by
  unfold process_bmp
  rw [if_neg Bool.false_ne_true]

theorem process_gif_dry_muts (world : World) (dir media_path backup_dir suffix : Str) (fs : FS) :
    (process_gif false world dir media_path backup_dir suffix fs).muts = [] := by
  unfold process_gif
  by_cases hsk : (("_immich.".toList ++ suffix).isSuffixOf media_path) = true
  · rw [if_pos hsk]
  · rw [if_neg hsk]
    cases hx : pathToName dir media_path >>= fs.lookup with
    | none => simp only [hx]
    | some f =>
      simp only [hx]
      rw [if_neg Bool.false_ne_true]

theorem process_mp4_dry_muts (world : World) (dir media_path backup_dir suffix : Str) (fs : FS) :
    (process_mp4 false world dir media_path backup_dir suffix fs).muts = [] := by
  unfold process_mp4
  cases hx : pathToName dir media_path >>= fs.lookup with
  | none => simp only [hx]
  | some f =>
    simp only [hx]
    by_cases hct : (f.content.streams.all fun s =>
      match s.tags with
      | none => false
      | some ts => ts.contains "creation_time".toList) = true
    · rw [if_pos hct]
    · rw [if_neg hct, if_neg Bool.false_ne_true]

theorem processOne_dry_muts (world : World) (dir backup_dir n : Str) (fs : FS) :
    (processOne false world dir backup_dir n fs).muts = [] := by
  unfold processOne
  simp only []
  split
  · exact process_jpg_dry_muts _ _ _
  · split
    · rename_i heq
      cases hx : pathToName dir (winJoin dir n) >>= fs.lookup with
      | none => simp [hx]
      | some f => simp [hx, process_png_dry_muts]
    · split
      · exact process_gif_dry_muts _ _ _ _ _ _
      · split
        · rename_i heq
          cases hx : pathToName dir (winJoin dir n) >>= fs.lookup with
          | none => simp [hx]
          | some f => simp [hx, process_bmp_dry_muts]
        · split
          · exact process_mp4_dry_muts _ _ _ _ _ _
          · split
            · rfl
            · rfl

theorem runFiles_dry_muts (world : World) (dir backup_dir : Str) :
    ∀ ns : List Str, ∀ fs : FS, (runFiles false world dir backup_dir ns fs).muts = [] := by
  intro ns
  induction ns with
  | nil => intro fs; rfl
  | cons n rest ih =>
    intro fs
    unfold runFiles
    cases he : (processOne false world dir backup_dir n fs).err with
    | some e => simp [he, processOne_dry_muts]
    | none => simp [he, processOne_dry_muts, ih]

-- ## Claim theorems

/-- C1 (counterexample): a dry run on a directory whose backup directory
does not yet exist performs a filesystem mutation: run setup creates the
backup directory, so the mutation list is not empty. -/
theorem c1_counterexample_dry_run_creates_backup_dir :
    (mainRun REQUIRED_OS_NAME false trueWorld sampleDir
        { media := [⟨"photo.bmp".toList, {}, 5, 3⟩], backupFiles := [],
          backupDirExists := false }).muts = [Mutation.mkdirBackup] := by
  decide

/-- C1 (amended): a dry run's only filesystem mutation is creating the
backup directory when it does not already exist; every handler and the
rest of run setup perform zero mutations, so with the backup directory
already present a dry run mutates nothing, whatever the directory, its
contents, and the external-tool outcomes. -/
theorem c1_amended_dry_run_muts (world : World) (media_dir : Str) (fs : FS) :
    (mainRun REQUIRED_OS_NAME false world media_dir fs).muts
      = if fs.backupDirExists then [] else [Mutation.mkdirBackup] := by
  unfold mainRun
  rw [if_pos (show (REQUIRED_OS_NAME == REQUIRED_OS_NAME) = true from by simp)]
  cases hb : fs.backupDirExists <;> simp [hb, runFiles_dry_muts]

/-- C3: the derived timestamp string is `min(T_c, T_m)` rendered in the
requested pattern: the image/EXIF pattern `YYYY:MM:DD HH:MM:SS` for
`EXIF_TIME_FORMAT` (used for JPEG/PNG/BMP/GIF) and the video pattern
`YYYY-MM-DDTHH:MM:SS` for `FFMPEG_TIME_FORMAT` (used for MP4/M4V); and it
is a function of the two stat times only, never of the embedded content. -/
theorem c3_earliest_date_min_and_format (f : MFile) :
    get_earliest_date_str f EXIF_TIME_FORMAT
        = specImagePattern (fromTimestamp (Nat.min f.ctime f.mtime)) ∧
      get_earliest_date_str f FFMPEG_TIME_FORMAT
        = specVideoPattern (fromTimestamp (Nat.min f.ctime f.mtime)) ∧
      ∀ g : MFile, g.ctime = f.ctime → g.mtime = f.mtime →
        ∀ fmt : Str, get_earliest_date_str g fmt = get_earliest_date_str f fmt := by
  have hmin : (if f.ctime < f.mtime then f.ctime else f.mtime) = Nat.min f.ctime f.mtime := by
    show _ = if f.ctime ≤ f.mtime then f.ctime else f.mtime
    split <;> split <;> omega
  refine ⟨?_, ?_, ?_⟩
  · show strftime (fromTimestamp (if f.ctime < f.mtime then f.ctime else f.mtime))
      EXIF_TIME_FORMAT = _
    rw [hmin, strftime_exif]
  · show strftime (fromTimestamp (if f.ctime < f.mtime then f.ctime else f.mtime))
      FFMPEG_TIME_FORMAT = _
    rw [hmin, strftime_ffmpeg]
  · intro g hc hm fmt
    unfold get_earliest_date_str
    rw [hc, hm]

/-- C9: on a host where `os.name` is not `"nt"`, `main` raises before doing
anything at all: no log, no mutation, the filesystem returned untouched,
for every run mode, world, directory and directory contents. -/
theorem c9_non_windows_aborts_immediately (os_name : Str)
    (h : os_name ≠ REQUIRED_OS_NAME) (real_run : Bool) (world : World)
    (media_dir : Str) (fs : FS) :
    mainRun os_name real_run world media_dir fs = ⟨[], [], fs, some Err.wrongOS⟩ := by
  unfold mainRun
  rw [if_neg (by simpa using h)]

/-- C9 witness at a concrete non-Windows host name. -/
theorem c9_witness :
    ("posix".toList : Str) ≠ REQUIRED_OS_NAME ∧
      mainRun "posix".toList true trueWorld sampleDir
          (FS.mk [⟨"photo.bmp".toList, {}, 5, 3⟩] [] false [])
        = ⟨[], [], FS.mk [⟨"photo.bmp".toList, {}, 5, 3⟩] [] false [], some Err.wrongOS⟩ :=
  ⟨by decide, c9_non_windows_aborts_immediately _ (by decide) _ _ _ _⟩

/-- C10: the processed-marker paths of the BMP, GIF and MP4 handlers
replace every occurrence of `'.' + suffix` in the full path; when the
pattern occurs exactly once, at the end, this equals inserting the marker
before the final extension, and a path with several occurrences has every
occurrence rewritten (`a.gif.gif` and a directory component containing
`.bmp` are both rewritten everywhere). -/
theorem c10_marker_path_semantics :
    (∀ stem suffix : Str,
        (∀ i, i < stem.length →
          ¬ (('.' :: suffix).isPrefixOf ((stem ++ '.' :: suffix).drop i) = true)) →
        immich_new_path (stem ++ '.' :: suffix) suffix
            = stem ++ "_immich.".toList ++ suffix ∧
          bmp_new_path (stem ++ '.' :: suffix) suffix = stem ++ "_bmp.png".toList) ∧
      immich_new_path "a.gif.gif".toList "gif".toList = "a_immich.gif_immich.gif".toList ∧
      bmp_new_path "dir.bmp\\photo.bmp".toList "bmp".toList
        = "dir_bmp.png\\photo_bmp.png".toList := by
  refine ⟨?_, by decide, by decide⟩
  intro stem suffix h
  constructor
  · show replaceAll ('.' :: suffix) ("_immich.".toList ++ suffix) (stem ++ '.' :: suffix) = _
    rw [replaceAll_single_occurrence _ _ (List.cons_ne_nil _ _) stem h, List.append_assoc]
  · show replaceAll ('.' :: suffix) ("_bmp.png".toList) (stem ++ '.' :: suffix) = _
    rw [replaceAll_single_occurrence _ _ (List.cons_ne_nil _ _) stem h]

/-- C10 witness at a single-occurrence path. -/
theorem c10_witness :
    (∀ i, i < ("photo".toList : Str).length →
        ¬ (('.' :: "gif".toList).isPrefixOf
            (("photo".toList ++ '.' :: "gif".toList).drop i) = true)) ∧
      immich_new_path ("photo".toList ++ '.' :: "gif".toList) "gif".toList
          = "photo".toList ++ "_immich.".toList ++ "gif".toList ∧
        bmp_new_path ("photo".toList ++ '.' :: "gif".toList) "gif".toList
          = "photo".toList ++ "_bmp.png".toList :=
  ⟨by decide, c10_marker_path_semantics.1 "photo".toList "gif".toList (by decide)⟩

/-- C3 witness at concrete stat times. -/
theorem c3_witness :
    get_earliest_date_str ⟨"a.jpg".toList, {}, 5, 3⟩ EXIF_TIME_FORMAT
        = specImagePattern (fromTimestamp (Nat.min 5 3)) ∧
      get_earliest_date_str ⟨"a.jpg".toList, {}, 5, 3⟩ FFMPEG_TIME_FORMAT
        = specVideoPattern (fromTimestamp (Nat.min 5 3)) ∧
      get_earliest_date_str ⟨"other-name.png".toList,
          { info := [("Creation Time".toList, "junk".toList)] }, 5, 3⟩ EXIF_TIME_FORMAT
        = get_earliest_date_str ⟨"a.jpg".toList, {}, 5, 3⟩ EXIF_TIME_FORMAT := by
  have h := c3_earliest_date_min_and_format ⟨"a.jpg".toList, {}, 5, 3⟩
  exact ⟨h.1, h.2.1,
    h.2.2 ⟨"other-name.png".toList, { info := [("Creation Time".toList, "junk".toList)] }, 5, 3⟩
      rfl rfl EXIF_TIME_FORMAT⟩

/-- C7: for a JPEG, a failing EXIF parse (absent or corrupted block) is not
an error: the handler logs the recovery line, substitutes `DEFAULT_EXIF`
and proceeds to the assignment; and whenever the parsed-or-substituted
EXIF dictionary already carries `DateTimeOriginal`, the handler returns
with no mutation and no error in both dry and real runs. -/
theorem c7_jpg_default_exif_and_skip (real_run : Bool) (dir media_path : Str)
    (fs : FS) (f : MFile) (hL : pathToName dir media_path >>= fs.lookup = some f) :
    (f.content.exif = none →
      (process_jpg real_run dir media_path fs).err = none ∧
        (process_jpg real_run dir media_path fs).logs
          = [⟨.info, "[No Exif metadata or corrupted] ".toList ++ media_path⟩,
             ⟨.info, "[Assign Date Taken (JPG)] ".toList ++ media_path ++ " ".toList
               ++ get_earliest_date_str f EXIF_TIME_FORMAT⟩]) ∧
      (∀ v, (match f.content.exif with
              | some d => d
              | none => DEFAULT_EXIF).dateTimeOriginal = some v →
        process_jpg real_run dir media_path fs
          = ⟨[⟨.debug, "[Date Taken is already present (JPG)] ".toList ++ media_path⟩],
             [], fs, none⟩) := by
  constructor
  · intro he
    unfold process_jpg
    simp only [hL, he]
    cases real_run
    · rw [if_neg Bool.false_ne_true]
      exact ⟨rfl, rfl⟩
    · rw [if_pos rfl]
      exact ⟨rfl, rfl⟩
  · intro v hv
    unfold process_jpg
    simp only [hL]
    cases he : f.content.exif with
    | none =>
      rw [he] at hv
      simp [DEFAULT_EXIF] at hv
    | some d =>
      rw [he] at hv
      have hv' : d.dateTimeOriginal = some v := hv
      simp [hv']

/-- C7 witness: a JPEG without a parseable EXIF block, and one whose EXIF
already has DateTimeOriginal, at a concrete directory state. -/
theorem c7_witness :
    (pathToName sampleDir (winJoin sampleDir "a.jpg".toList) >>=
        (FS.mk [⟨"a.jpg".toList, {}, 5, 3⟩] [] true []).lookup
      = some ⟨"a.jpg".toList, {}, 5, 3⟩) ∧
      ((⟨"a.jpg".toList, {}, 5, 3⟩ : MFile).content.exif = none →
        (process_jpg true sampleDir (winJoin sampleDir "a.jpg".toList)
            (FS.mk [⟨"a.jpg".toList, {}, 5, 3⟩] [] true [])).err = none ∧
          (process_jpg true sampleDir (winJoin sampleDir "a.jpg".toList)
              (FS.mk [⟨"a.jpg".toList, {}, 5, 3⟩] [] true [])).logs
            = [⟨.info, "[No Exif metadata or corrupted] ".toList
                  ++ winJoin sampleDir "a.jpg".toList⟩,
               ⟨.info, "[Assign Date Taken (JPG)] ".toList ++ winJoin sampleDir "a.jpg".toList
                  ++ " ".toList
                  ++ get_earliest_date_str ⟨"a.jpg".toList, {}, 5, 3⟩ EXIF_TIME_FORMAT⟩]) := by
  have h := c7_jpg_default_exif_and_skip true sampleDir (winJoin sampleDir "a.jpg".toList)
    (FS.mk [⟨"a.jpg".toList, {}, 5, 3⟩] [] true []) ⟨"a.jpg".toList, {}, 5, 3⟩ (by decide)
  exact ⟨by decide, h.1⟩

-- ## Lemmas for the MP4 handler

theorem tagged_streams_all_creation_time (streams : List MStream) :
    ((streams.map (fun s =>
        { s with tags := some (match s.tags with
            | none => ["creation_time".toList]
            | some ts => if ts.contains "creation_time".toList then ts
                         else ts ++ ["creation_time".toList]) })).all (fun s =>
      match s.tags with
      | none => false
      | some ts => ts.contains "creation_time".toList)) = true := by
  rw [List.all_map, List.all_eq_true]
  intro s _
  show ((match s.tags with
      | none => ["creation_time".toList]
      | some ts => if ts.contains "creation_time".toList then ts
                   else ts ++ ["creation_time".toList]).contains "creation_time".toList) = true
  cases s.tags with
  | none => decide
  | some ts =>
    show (if ts.contains "creation_time".toList then ts
          else ts ++ ["creation_time".toList]).contains "creation_time".toList = true
    by_cases hc : ts.contains "creation_time".toList = true
    · rw [if_pos hc]; exact hc
    · rw [if_neg hc]
      simp

/-- C6: detection and re-mux of the MP4/M4V handler.  Skipping happens, in
both modes, exactly when every probed stream carries a `creation_time`
tag; in a real run that completes without error the handler mutates
nothing iff that detection held.  Otherwise the real run re-muxes into the
marker path with the video stream copied (`vcodec copy`) and audio
transcoded (`acodec aac`), injecting `creation_time` into every output
stream, and moves the original into the backup only after a successful
re-mux: a failed re-mux aborts with the filesystem unchanged. -/
theorem c6_mp4_detection_and_remux (real_run : Bool) (world : World)
    (dir media_path backup_dir suffix : Str) (fs : FS) (f : MFile)
    (hL : pathToName dir media_path >>= fs.lookup = some f) :
    (((f.content.streams.all fun s =>
        match s.tags with
        | none => false
        | some ts => ts.contains "creation_time".toList) = true) →
      process_mp4 real_run world dir media_path backup_dir suffix fs = ⟨[], [], fs, none⟩) ∧
      (((f.content.streams.all fun s =>
          match s.tags with
          | none => false
          | some ts => ts.contains "creation_time".toList) = false) →
        (world.ffmpegOk (immich_new_path media_path suffix) = false →
          process_mp4 true world dir media_path backup_dir suffix fs
            = ⟨[⟨.info, "[Assign Media Created (MP4)] ".toList
                  ++ immich_new_path media_path suffix ++ " ".toList
                  ++ get_earliest_date_str f FFMPEG_TIME_FORMAT⟩], [], fs,
               some (.ffmpegFailed (immich_new_path media_path suffix))⟩) ∧
        (world.ffmpegOk (immich_new_path media_path suffix) = true →
          ∀ fs2 : FS,
            (fs.createOrReplace dir (immich_new_path media_path suffix)
                { f.content with streams := f.content.streams.map (fun s =>
                    { s with tags := some (match s.tags with
                        | none => ["creation_time".toList]
                        | some ts => if ts.contains "creation_time".toList then ts
                                     else ts ++ ["creation_time".toList]) }) }
                f.ctime f.mtime).moveToBackup f.name = some fs2 →
            process_mp4 true world dir media_path backup_dir suffix fs
              = ⟨[⟨.info, "[Assign Media Created (MP4)] ".toList
                    ++ immich_new_path media_path suffix ++ " ".toList
                    ++ get_earliest_date_str f FFMPEG_TIME_FORMAT⟩],
                 [.create (immich_new_path media_path suffix), .moveToBackup media_path],
                 fs2, none⟩)) ∧
      ((process_mp4 true world dir media_path backup_dir suffix fs).err = none →
        ((process_mp4 true world dir media_path backup_dir suffix fs).muts = []
          ↔ (f.content.streams.all fun s =>
              match s.tags with
              | none => false
              | some ts => ts.contains "creation_time".toList) = true)) ∧
      ((f.content.streams.map (fun s =>
          { s with tags := some (match s.tags with
              | none => ["creation_time".toList]
              | some ts => if ts.contains "creation_time".toList then ts
                           else ts ++ ["creation_time".toList]) })).all (fun s =>
        match s.tags with
        | none => false
        | some ts => ts.contains "creation_time".toList)) = true ∧
      (mp4_output_args media_path (immich_new_path media_path suffix)
          (get_earliest_date_str f FFMPEG_TIME_FORMAT)).vcodec = "copy".toList ∧
      (mp4_output_args media_path (immich_new_path media_path suffix)
          (get_earliest_date_str f FFMPEG_TIME_FORMAT)).acodec = "aac".toList := by
  have p1 : ∀ rr : Bool, ((f.content.streams.all fun s =>
      match s.tags with
      | none => false
      | some ts => ts.contains "creation_time".toList) = true) →
      process_mp4 rr world dir media_path backup_dir suffix fs = ⟨[], [], fs, none⟩ := by
    intro rr hc
    unfold process_mp4
    simp only [hL]
    rw [if_pos hc]
  have p2f : ((f.content.streams.all fun s =>
      match s.tags with
      | none => false
      | some ts => ts.contains "creation_time".toList) = false) →
      world.ffmpegOk (immich_new_path media_path suffix) = false →
      process_mp4 true world dir media_path backup_dir suffix fs
        = ⟨[⟨.info, "[Assign Media Created (MP4)] ".toList
              ++ immich_new_path media_path suffix ++ " ".toList
              ++ get_earliest_date_str f FFMPEG_TIME_FORMAT⟩], [], fs,
           some (.ffmpegFailed (immich_new_path media_path suffix))⟩ := by
    intro hc hw
    unfold process_mp4
    simp only [hL, mp4_output_args]
    rw [if_neg (by rw [hc]; exact Bool.false_ne_true), if_pos trivial,
      if_neg (by rw [hw]; exact Bool.false_ne_true)]
  have p2t : ((f.content.streams.all fun s =>
      match s.tags with
      | none => false
      | some ts => ts.contains "creation_time".toList) = false) →
      world.ffmpegOk (immich_new_path media_path suffix) = true →
      ∀ fs2 : FS,
        (fs.createOrReplace dir (immich_new_path media_path suffix)
            { f.content with streams := f.content.streams.map (fun s =>
                { s with tags := some (match s.tags with
                    | none => ["creation_time".toList]
                    | some ts => if ts.contains "creation_time".toList then ts
                                 else ts ++ ["creation_time".toList]) }) }
            f.ctime f.mtime).moveToBackup f.name = some fs2 →
        process_mp4 true world dir media_path backup_dir suffix fs
          = ⟨[⟨.info, "[Assign Media Created (MP4)] ".toList
                ++ immich_new_path media_path suffix ++ " ".toList
                ++ get_earliest_date_str f FFMPEG_TIME_FORMAT⟩],
             [.create (immich_new_path media_path suffix), .moveToBackup media_path],
             fs2, none⟩ := by
    intro hc hw fs2 hmv
    unfold process_mp4
    simp only [hL, mp4_output_args]
    rw [if_neg (by rw [hc]; exact Bool.false_ne_true), if_pos trivial, if_pos hw, hmv]
  have p2n : ((f.content.streams.all fun s =>
      match s.tags with
      | none => false
      | some ts => ts.contains "creation_time".toList) = false) →
      world.ffmpegOk (immich_new_path media_path suffix) = true →
      (fs.createOrReplace dir (immich_new_path media_path suffix)
          { f.content with streams := f.content.streams.map (fun s =>
              { s with tags := some (match s.tags with
                  | none => ["creation_time".toList]
                  | some ts => if ts.contains "creation_time".toList then ts
                               else ts ++ ["creation_time".toList]) }) }
          f.ctime f.mtime).moveToBackup f.name = none →
      (process_mp4 true world dir media_path backup_dir suffix fs).err
        = some (.moveCollision f.name) := by
    intro hc hw hmv
    unfold process_mp4
    simp only [hL, mp4_output_args]
    rw [if_neg (by rw [hc]; exact Bool.false_ne_true), if_pos trivial, if_pos hw, hmv]
  refine ⟨p1 real_run, fun hc => ⟨p2f hc, p2t hc⟩, ?_,
    tagged_streams_all_creation_time f.content.streams, rfl, rfl⟩
  intro he
  constructor
  · intro hm
    by_cases hc : (f.content.streams.all fun s =>
        match s.tags with
        | none => false
        | some ts => ts.contains "creation_time".toList) = true
    · exact hc
    · exfalso
      have hc' : (f.content.streams.all fun s =>
          match s.tags with
          | none => false
          | some ts => ts.contains "creation_time".toList) = false := by
        simpa using hc
      cases hw : world.ffmpegOk (immich_new_path media_path suffix) with
      | false =>
        rw [p2f hc' hw] at he
        simp at he
      | true =>
        cases hmv : (fs.createOrReplace dir (immich_new_path media_path suffix)
            { f.content with streams := f.content.streams.map (fun s =>
                { s with tags := some (match s.tags with
                    | none => ["creation_time".toList]
                    | some ts => if ts.contains "creation_time".toList then ts
                                 else ts ++ ["creation_time".toList]) }) }
            f.ctime f.mtime).moveToBackup f.name with
        | none =>
          rw [p2n hc' hw hmv] at he
          simp at he
        | some fs2 =>
          rw [p2t hc' hw fs2 hmv] at hm
          simp at hm
  · intro hc
    rw [p1 true hc]

/-- C6 witness: a fully tagged MP4 is skipped without mutation. -/
theorem c6_witness :
    (pathToName sampleDir (winJoin sampleDir "v.mp4".toList) >>=
        (FS.mk [⟨"v.mp4".toList, { streams := [⟨some ["creation_time".toList]⟩] }, 7, 2⟩]
          [] true []).lookup
      = some ⟨"v.mp4".toList, { streams := [⟨some ["creation_time".toList]⟩] }, 7, 2⟩) ∧
      process_mp4 true trueWorld sampleDir (winJoin sampleDir "v.mp4".toList)
          (winJoin sampleDir BACKUP_DIR_NAME) "mp4".toList
          (FS.mk [⟨"v.mp4".toList, { streams := [⟨some ["creation_time".toList]⟩] }, 7, 2⟩]
            [] true [])
        = ⟨[], [],
           FS.mk [⟨"v.mp4".toList, { streams := [⟨some ["creation_time".toList]⟩] }, 7, 2⟩]
             [] true [], none⟩ :=
  ⟨by decide,
    (c6_mp4_detection_and_remux true trueWorld sampleDir (winJoin sampleDir "v.mp4".toList)
      (winJoin sampleDir BACKUP_DIR_NAME) "mp4".toList
      (FS.mk [⟨"v.mp4".toList, { streams := [⟨some ["creation_time".toList]⟩] }, 7, 2⟩]
        [] true [])
      ⟨"v.mp4".toList, { streams := [⟨some ["creation_time".toList]⟩] }, 7, 2⟩
      (by decide)).1 (by decide)⟩

/-- C5: on a directory holding a single `photo.bmp` with no metadata and
arbitrary stat times, the real run produces exactly `photo_bmp.png`
carrying both text fields set to the oracle timestamp, relocates
`photo.bmp` into the backup, leaves no other file, and performs the
conversion first, then the backup move, then the PNG handler's rewrite. -/
theorem c5_bmp_pipeline (ct mt : Nat) :
    mainRun REQUIRED_OS_NAME true trueWorld sampleDir
        (FS.mk [⟨"photo.bmp".toList, {}, ct, mt⟩] [] false [])
      = ⟨[⟨.debug, "Create backup directory: ".toList ++ winJoin sampleDir BACKUP_DIR_NAME⟩,
          ⟨.debug, dashes ++ " [Processing] ".toList ++ "photo.bmp".toList ++ " ".toList ++ dashes⟩,
          ⟨.info, "[Convert BMP to PNG)] ".toList ++ winJoin sampleDir "photo.bmp".toList
            ++ " ".toList ++ winJoin sampleDir "photo_bmp.png".toList⟩,
          ⟨.info, "[Assign Date Taken (PNG)] ".toList ++ winJoin sampleDir "photo_bmp.png".toList
            ++ " ".toList ++ get_earliest_date_str ⟨"photo.bmp".toList, {}, ct, mt⟩ EXIF_TIME_FORMAT⟩],
         [.mkdirBackup,
          .create (winJoin sampleDir "photo_bmp.png".toList),
          .moveToBackup (winJoin sampleDir "photo.bmp".toList),
          .rewrite (winJoin sampleDir "photo_bmp.png".toList)],
         FS.mk [⟨"photo_bmp.png".toList,
             { info := [("Creation Time".toList,
                   get_earliest_date_str ⟨"photo.bmp".toList, {}, ct, mt⟩ EXIF_TIME_FORMAT),
                 ("Date Time Original".toList,
                   get_earliest_date_str ⟨"photo.bmp".toList, {}, ct, mt⟩ EXIF_TIME_FORMAT)] },
             ct, mt⟩]
           ["photo.bmp".toList] true [],
         none⟩ := by
  rfl

-- ## Lemmas: composing the file loop

theorem runFiles_append (real_run : Bool) (world : World) (dir backup_dir : Str) :
    ∀ ns1 : List Str, ∀ ns2 : List Str, ∀ fs : FS, ∀ logs muts fs1,
      runFiles real_run world dir backup_dir ns1 fs = ⟨logs, muts, fs1, none⟩ →
      runFiles real_run world dir backup_dir (ns1 ++ ns2) fs
        = ⟨logs ++ (runFiles real_run world dir backup_dir ns2 fs1).logs,
           muts ++ (runFiles real_run world dir backup_dir ns2 fs1).muts,
           (runFiles real_run world dir backup_dir ns2 fs1).fs,
           (runFiles real_run world dir backup_dir ns2 fs1).err⟩ := by
  intro ns1
  induction ns1 with
  | nil =>
    intro ns2 fs logs muts fs1 h
    simp only [runFiles, RunOut.mk.injEq] at h
    obtain ⟨h1, h2, h3, -⟩ := h
    subst h1 h2 h3
    simp
  | cons n rest ih =>
    intro ns2 fs logs muts fs1 h
    cases hr0 : processOne real_run world dir backup_dir n fs with
    | mk l1 m1 f1 e1 =>
      simp only [runFiles, hr0, List.cons_append] at h ⊢
      cases e1 with
      | some e => simp at h
      | none =>
        cases hr : runFiles real_run world dir backup_dir rest f1 with
        | mk l2 m2 f2 e2 =>
          rw [hr] at h
          simp only [RunOut.mk.injEq] at h
          obtain ⟨h1, h2, h3, h4⟩ := h
          subst h1 h2 h3 h4
          simp only [List.append_eq]
          rw [ih ns2 f1 l2 m2 f2 (by rw [hr])]
          simp

theorem processOne_unsupported (real_run : Bool) (world : World)
    (dir backup_dir name : Str) (fs : FS)
    (h1 : lowerStr (rsplitSuffix name) ≠ "jpg".toList)
    (h2 : lowerStr (rsplitSuffix name) ≠ "jpeg".toList)
    (h3 : lowerStr (rsplitSuffix name) ≠ "png".toList)
    (h4 : lowerStr (rsplitSuffix name) ≠ "gif".toList)
    (h5 : lowerStr (rsplitSuffix name) ≠ "bmp".toList)
    (h6 : lowerStr (rsplitSuffix name) ≠ "mp4".toList)
    (h7 : lowerStr (rsplitSuffix name) ≠ "m4v".toList)
    (h8 : lowerStr (rsplitSuffix name) ≠ "mov".toList)
    (h9 : lowerStr (rsplitSuffix name) ≠ "tif".toList)
    (h10 : lowerStr (rsplitSuffix name) ≠ "heic".toList)
    (h11 : lowerStr (rsplitSuffix name) ≠ "webp".toList) :
    processOne real_run world dir backup_dir name fs
      = ⟨[⟨.debug, dashes ++ " [Processing] ".toList ++ name ++ " ".toList ++ dashes⟩],
         [], fs, some (.unsupportedSuffix (rsplitSuffix name) name)⟩ := by
  have e1 := beq_eq_false_iff_ne.mpr h1
  have e2 := beq_eq_false_iff_ne.mpr h2
  have e3 := beq_eq_false_iff_ne.mpr h3
  have e4 := beq_eq_false_iff_ne.mpr h4
  have e5 := beq_eq_false_iff_ne.mpr h5
  have e6 := beq_eq_false_iff_ne.mpr h6
  have e7 := beq_eq_false_iff_ne.mpr h7
  have e8 := beq_eq_false_iff_ne.mpr h8
  have e9 := beq_eq_false_iff_ne.mpr h9
  have e10 := beq_eq_false_iff_ne.mpr h10
  have e11 := beq_eq_false_iff_ne.mpr h11
  simp only [processOne]
  rw [if_neg (by rw [e1, e2]; decide), if_neg (by rw [e3]; decide),
    if_neg (by rw [e4]; decide), if_neg (by rw [e5]; decide),
    if_neg (by rw [e6, e7]; decide), if_neg (by rw [e8, e9, e10, e11]; decide)]

/-- C4: when the loop reaches a file whose lowercased extension is in
neither the handled set nor the pass-through set, the run raises an
exception carrying that suffix; the result is independent of every
subsequent file in enumeration order and the filesystem stays as the
prefix of the enumeration left it. -/
theorem c4_unsupported_suffix_aborts (real_run : Bool) (world : World)
    (dir backup_dir : Str) (pre : List Str) (name : Str) (post : List Str)
    (fs fs1 : FS) (logs : List LogLine) (muts : List Mutation)
    (hpre : runFiles real_run world dir backup_dir pre fs = ⟨logs, muts, fs1, none⟩)
    (h1 : lowerStr (rsplitSuffix name) ≠ "jpg".toList)
    (h2 : lowerStr (rsplitSuffix name) ≠ "jpeg".toList)
    (h3 : lowerStr (rsplitSuffix name) ≠ "png".toList)
    (h4 : lowerStr (rsplitSuffix name) ≠ "gif".toList)
    (h5 : lowerStr (rsplitSuffix name) ≠ "bmp".toList)
    (h6 : lowerStr (rsplitSuffix name) ≠ "mp4".toList)
    (h7 : lowerStr (rsplitSuffix name) ≠ "m4v".toList)
    (h8 : lowerStr (rsplitSuffix name) ≠ "mov".toList)
    (h9 : lowerStr (rsplitSuffix name) ≠ "tif".toList)
    (h10 : lowerStr (rsplitSuffix name) ≠ "heic".toList)
    (h11 : lowerStr (rsplitSuffix name) ≠ "webp".toList) :
    runFiles real_run world dir backup_dir (pre ++ name :: post) fs
      = ⟨logs ++ [⟨.debug, dashes ++ " [Processing] ".toList ++ name ++ " ".toList ++ dashes⟩],
         muts, fs1, some (.unsupportedSuffix (rsplitSuffix name) name)⟩ := by
  rw [runFiles_append real_run world dir backup_dir pre (name :: post) fs logs muts fs1 hpre]
  have hbad := processOne_unsupported real_run world dir backup_dir name fs1
    h1 h2 h3 h4 h5 h6 h7 h8 h9 h10 h11
  unfold runFiles
  rw [hbad]
  simp

/-- C4 witness: a `note.txt` after a pass-through `.mov` aborts the run
with the `.txt` suffix, leaving the state untouched and never reaching the
jpg that follows it. -/
theorem c4_witness :
    (runFiles true trueWorld sampleDir (winJoin sampleDir BACKUP_DIR_NAME)
        ["clip.mov".toList]
        (FS.mk [⟨"clip.mov".toList, {}, 1, 1⟩, ⟨"note.txt".toList, {}, 1, 1⟩,
          ⟨"a.jpg".toList, {}, 1, 1⟩] [] true [])
      = ⟨[⟨.debug, dashes ++ " [Processing] ".toList ++ "clip.mov".toList ++ " ".toList ++ dashes⟩,
          ⟨.debug, "Suffix .".toList ++ "mov".toList ++ " seems fine: ".toList ++ "clip.mov".toList⟩],
         [],
         FS.mk [⟨"clip.mov".toList, {}, 1, 1⟩, ⟨"note.txt".toList, {}, 1, 1⟩,
           ⟨"a.jpg".toList, {}, 1, 1⟩] [] true [], none⟩) ∧
      runFiles true trueWorld sampleDir (winJoin sampleDir BACKUP_DIR_NAME)
          (["clip.mov".toList] ++ "note.txt".toList :: ["a.jpg".toList])
          (FS.mk [⟨"clip.mov".toList, {}, 1, 1⟩, ⟨"note.txt".toList, {}, 1, 1⟩,
            ⟨"a.jpg".toList, {}, 1, 1⟩] [] true [])
        = ⟨[⟨.debug, dashes ++ " [Processing] ".toList ++ "clip.mov".toList ++ " ".toList ++ dashes⟩,
            ⟨.debug, "Suffix .".toList ++ "mov".toList ++ " seems fine: ".toList ++ "clip.mov".toList⟩]
            ++ [⟨.debug, dashes ++ " [Processing] ".toList ++ "note.txt".toList ++ " ".toList ++ dashes⟩],
           [],
           FS.mk [⟨"clip.mov".toList, {}, 1, 1⟩, ⟨"note.txt".toList, {}, 1, 1⟩,
             ⟨"a.jpg".toList, {}, 1, 1⟩] [] true [],
           some (.unsupportedSuffix (rsplitSuffix "note.txt".toList) "note.txt".toList)⟩ :=
  ⟨by decide,
    c4_unsupported_suffix_aborts true trueWorld sampleDir (winJoin sampleDir BACKUP_DIR_NAME)
      ["clip.mov".toList] "note.txt".toList ["a.jpg".toList]
      (FS.mk [⟨"clip.mov".toList, {}, 1, 1⟩, ⟨"note.txt".toList, {}, 1, 1⟩,
        ⟨"a.jpg".toList, {}, 1, 1⟩] [] true [])
      (FS.mk [⟨"clip.mov".toList, {}, 1, 1⟩, ⟨"note.txt".toList, {}, 1, 1⟩,
        ⟨"a.jpg".toList, {}, 1, 1⟩] [] true [])
      [⟨.debug, dashes ++ " [Processing] ".toList ++ "clip.mov".toList ++ " ".toList ++ dashes⟩,
       ⟨.debug, "Suffix .".toList ++ "mov".toList ++ " seems fine: ".toList ++ "clip.mov".toList⟩]
      [] (by decide)
      (by decide) (by decide) (by decide) (by decide) (by decide) (by decide)
      (by decide) (by decide) (by decide) (by decide) (by decide)⟩

-- ## Lemmas: path resolution

theorem winJoin_split (dir n : Str) : winJoin dir n = (dir ++ ['\\']) ++ n := by
  unfold winJoin
  simp

theorem pathToName_winJoin (dir n : Str) (h : '\\' ∉ n) :
    pathToName dir (winJoin dir n) = some n := by
  have hpre : ((dir ++ ['\\']).isPrefixOf (winJoin dir n)) = true := by
    rw [winJoin_split]
    exact (List.isPrefixOf_iff_prefix).mpr (List.prefix_append _ _)
  have hdrop : (winJoin dir n).drop (dir.length + 1) = n := by
    rw [winJoin_split]
    have hl : dir.length + 1 = (dir ++ ['\\']).length := by simp
    rw [hl, List.drop_left]
  have hcon : (n.contains '\\') = false := by
    simpa using h
  unfold pathToName
  rw [if_pos hpre]
  simp only [hdrop, hcon]
  rw [if_neg Bool.false_ne_true]

theorem pathToName_some (dir p n : Str) (h : pathToName dir p = some n) :
    p = winJoin dir n ∧ '\\' ∉ n := by
  unfold pathToName at h
  by_cases hpre : ((dir ++ ['\\']).isPrefixOf p) = true
  · rw [if_pos hpre] at h
    simp only [] at h
    by_cases hcon : (p.drop (dir.length + 1)).contains '\\' = true
    · rw [if_pos hcon] at h
      exact absurd h (by simp)
    · rw [if_neg hcon] at h
      injection h with h1
      obtain ⟨t, ht⟩ := (List.isPrefixOf_iff_prefix).mp hpre
      subst ht
      have hd : ((dir ++ ['\\']) ++ t).drop (dir.length + 1) = t := by
        have hl : dir.length + 1 = (dir ++ ['\\']).length := by simp
        rw [hl, List.drop_left]
      rw [hd] at h1 hcon
      subst h1
      refine ⟨by rw [winJoin_split], ?_⟩
      intro hm
      exact hcon (by simpa using hm)
  · rw [if_neg hpre] at h
    exact absurd h (by simp)

-- ## Lemmas: marker names

theorem marker_path_distributes (dir n sfx repl : Str)
    (hdir : ∀ c ∈ dir, c ≠ '.') :
    replaceAll ('.' :: sfx) repl (winJoin dir n)
      = winJoin dir (replaceAll ('.' :: sfx) repl n) := by
  rw [winJoin_split, winJoin_split]
  exact replaceAll_clean_append ('.' :: sfx) repl '.' rfl (dir ++ ['\\']) n
    (fun a ha => by
      rcases List.mem_append.mp ha with h1 | h1
      · exact hdir a h1
      · simp at h1
        subst h1
        decide)

theorem marker_name_sep_free (n sfx repl : Str) (hn : '\\' ∉ n) (hr : '\\' ∉ repl) :
    '\\' ∉ replaceAll ('.' :: sfx) repl n := by
  intro hm
  rcases mem_replaceAll ('.' :: sfx) repl n.length n (Nat.le_refl _) _ hm with h1 | h1
  · exact hn h1
  · exact hr h1

theorem marker_name_ends (n : Str) (hdot : '.' ∈ n) (repl : Str) :
    ∃ ys, replaceAll ('.' :: rsplitSuffix n) repl n = ys ++ repl := by
  obtain ⟨stem, hst, hds⟩ := name_decomp n hdot
  have h2 := replaceAll_append_pat (rsplitSuffix n) repl hds stem.length stem (Nat.le_refl _)
  rw [← hst] at h2
  exact h2

theorem rsplit_of_ends_dot (m sfx : Str) (hds : '.' ∉ sfx)
    (h : ∃ ys, m = ys ++ '.' :: sfx) : rsplitSuffix m = sfx := by
  obtain ⟨ys, rfl⟩ := h
  exact rsplitSuffix_append_dot ys sfx hds

-- ## Lemmas: filesystem operation effects on lookups

theorem find?_map_name (g : MFile → MFile) (hg : ∀ f, (g f).name = f.name) (m : Str) :
    ∀ l : List MFile,
      (l.map g).find? (fun f => f.name == m) = (l.find? (fun f => f.name == m)).map g := by
  intro l
  induction l with
  | nil => rfl
  | cons f rest ih =>
    simp only [List.map_cons, List.find?]
    rw [hg f]
    cases hf : (f.name == m) with
    | true => rfl
    | false => exact ih

theorem lookup_rewriteContent (fs : FS) (n : Str) (c : MediaContent) (m : Str) :
    (fs.rewriteContent n c).lookup m
      = (fs.lookup m).map (fun f => if f.name == n then { f with content := c } else f) := by
  unfold FS.lookup FS.rewriteContent
  exact find?_map_name _ (fun f => by split <;> rfl) m fs.media

theorem find?_filter_ne (b m : Str) (hne : m ≠ b) :
    ∀ l : List MFile,
      (l.filter (fun f => f.name != b)).find? (fun f => f.name == m)
        = l.find? (fun f => f.name == m) := by
  intro l
  induction l with
  | nil => rfl
  | cons f rest ih =>
    simp only [List.filter, List.find?]
    by_cases hf : (f.name == m) = true
    · have hkeep : (f.name != b) = true := by
        have he : f.name = m := by simpa using hf
        simp [he, hne]
      rw [hkeep]
      simp only [List.find?]
      rw [hf]
    · cases hk : (f.name != b) with
      | true =>
        simp only [List.find?]
        rw [show (f.name == m) = false from by simpa using hf]
        exact ih
      | false =>
        rw [show (f.name == m) = false from by simpa using hf]
        exact ih

theorem find?_filter_self (b : Str) :
    ∀ l : List MFile,
      (l.filter (fun f => f.name != b)).find? (fun f => f.name == b) = none := by
  intro l
  induction l with
  | nil => rfl
  | cons f rest ih =>
    simp only [List.filter]
    cases hk : (f.name != b) with
    | true =>
      simp only [List.find?]
      rw [show (f.name == b) = false from by simpa using hk]
      exact ih
    | false => exact ih

theorem lookup_name (fs : FS) (m : Str) (f : MFile) (h : fs.lookup m = some f) :
    f.name = m ∧ f ∈ fs.media := by
  unfold FS.lookup at h
  refine ⟨by simpa using List.find?_some h, List.mem_of_find?_eq_some h⟩

theorem find?_append_ne (x : MFile) (m : Str) (hx : (x.name == m) = false) :
    ∀ l : List MFile,
      (l ++ [x]).find? (fun f => f.name == m) = l.find? (fun f => f.name == m) := by
  intro l
  induction l with
  | nil => simp only [List.nil_append, List.find?, hx]
  | cons f rest ih =>
    simp only [List.cons_append, List.find?]
    cases hf : (f.name == m) with
    | true => rfl
    | false => exact ih

theorem find?_append_found (x : MFile) (m : Str) (hx : (x.name == m) = true) :
    ∀ l : List MFile, l.find? (fun f => f.name == m) = none →
      (l ++ [x]).find? (fun f => f.name == m) = some x := by
  intro l
  induction l with
  | nil => intro _; simp only [List.nil_append, List.find?, hx]
  | cons f rest ih =>
    intro hl
    simp only [List.find?] at hl
    simp only [List.cons_append, List.find?]
    cases hf : (f.name == m) with
    | true => rw [hf] at hl; exact absurd hl (by simp)
    | false => rw [hf] at hl; exact ih hl

theorem lookup_createOrReplace_other (fs : FS) (dir p : Str) (c : MediaContent)
    (ct mt : Nat) (m : Str) (h : pathToName dir p ≠ some m) :
    (fs.createOrReplace dir p c ct mt).lookup m = fs.lookup m := by
  unfold FS.createOrReplace
  rcases Option.eq_none_or_eq_some (pathToName dir p) with hp | ⟨n, hp⟩
  · simp only [hp]
    rfl
  · have hnm : n ≠ m := fun he => h (by rw [hp, he])
    simp only [hp]
    by_cases hany : (fs.media.any fun f => f.name == n) = true
    · rw [if_pos hany]
      have heq : (FS.mk (fs.media.map (fun f => if f.name == n then { f with content := c } else f))
          fs.backupFiles fs.backupDirExists fs.outside).lookup m
          = (fs.rewriteContent n c).lookup m := rfl
      rw [heq, lookup_rewriteContent]
      cases hl : fs.lookup m with
      | none => rfl
      | some f =>
        have hf := lookup_name fs m f hl
        show some (if f.name == n then { f with content := c } else f) = some f
        rw [if_neg (by rw [hf.1]; simpa using fun he => hnm he.symm)]
    · rw [if_neg hany]
      show (fs.media ++ [(⟨n, c, ct, mt⟩ : MFile)]).find? (fun f => f.name == m) = _
      exact find?_append_ne _ m (by simpa using hnm) fs.media

theorem lookup_createOrReplace_self (fs : FS) (dir p : Str) (c : MediaContent)
    (ct mt : Nat) (n : Str) (h : pathToName dir p = some n) :
    ∃ f', (fs.createOrReplace dir p c ct mt).lookup n = some f' ∧
      f'.name = n ∧ f'.content = c := by
  unfold FS.createOrReplace
  simp only [h]
  by_cases hany : (fs.media.any fun f => f.name == n) = true
  · rw [if_pos hany]
    have hs : ∃ f, f ∈ fs.media ∧ (f.name == n) = true := by
      simpa [List.any_eq_true] using hany
    have hfind : ∃ f0, fs.lookup n = some f0 := by
      rw [← Option.isSome_iff_exists]
      unfold FS.lookup
      rw [List.find?_isSome]
      obtain ⟨f, hf1, hf2⟩ := hs
      exact ⟨f, hf1, hf2⟩
    obtain ⟨f0, hf0⟩ := hfind
    have hn0 := lookup_name fs n f0 hf0
    have heq : (FS.mk (fs.media.map (fun f => if f.name == n then { f with content := c } else f))
        fs.backupFiles fs.backupDirExists fs.outside).lookup n
        = (fs.rewriteContent n c).lookup n := rfl
    refine ⟨{ f0 with content := c }, ?_, by simp [hn0.1], rfl⟩
    rw [heq, lookup_rewriteContent, hf0]
    show some (if f0.name == n then { f0 with content := c } else f0) = _
    rw [if_pos (by simp [hn0.1])]
  · rw [if_neg hany]
    refine ⟨⟨n, c, ct, mt⟩, ?_, rfl, rfl⟩
    show (fs.media ++ [(⟨n, c, ct, mt⟩ : MFile)]).find? (fun f => f.name == n) = _
    refine find?_append_found _ n (by simp) fs.media ?_
    rw [List.find?_eq_none]
    intro f hf
    intro hfn
    exact absurd (List.any_eq_true.mpr ⟨f, hf, hfn⟩) hany

theorem moveToBackup_some (fs : FS) (b : Str) (fs2 : FS)
    (h : fs.moveToBackup b = some fs2) :
    fs2 = { fs with media := fs.media.filter (fun f => f.name != b),
                    backupFiles := fs.backupFiles ++ [b] } := by
  unfold FS.moveToBackup at h
  by_cases hc : (fs.backupFiles.contains b) = true
  · rw [if_pos hc] at h
    exact absurd h (by simp)
  · rw [if_neg hc] at h
    injection h with h1
    exact h1.symm

theorem renameTo_some (fs : FS) (dir oldName newPath : Str) (fs2 : FS)
    (h : fs.renameTo dir oldName newPath = some fs2) :
    (pathToName dir newPath = some oldName ∧ fs2 = fs) ∨
      (∃ n', pathToName dir newPath = some n' ∧ n' ≠ oldName ∧
        (fs.media.any fun f => f.name == n') = false ∧
        fs2 = { fs with media :=
          (fs.media.map (fun f => if f.name == oldName then { f with name := n' } else f)) }) ∨
      (pathToName dir newPath = none ∧
        fs2 = { fs with media := (fs.media.filter (fun f => f.name != oldName)),
                        outside := fs.outside ++ [newPath] }) := by
  unfold FS.renameTo at h
  rcases Option.eq_none_or_eq_some (pathToName dir newPath) with hp | ⟨n', hp⟩
  · simp only [hp] at h
    injection h with h1
    exact Or.inr (Or.inr ⟨hp, h1.symm⟩)
  · simp only [hp] at h
    by_cases he : (n' == oldName) = true
    · rw [if_pos he] at h
      injection h with h1
      exact Or.inl ⟨by rw [hp, show n' = oldName from by simpa using he], h1.symm⟩
    · rw [if_neg he] at h
      by_cases hany : (fs.media.any fun f => f.name == n') = true
      · rw [if_pos hany] at h
        exact absurd h (by simp)
      · rw [if_neg hany] at h
        injection h with h1
        exact Or.inr (Or.inl ⟨n', hp, by simpa using he, by simpa using hany, h1.symm⟩)

theorem nodup_subst (n m' : Str) :
    ∀ xs : List Str, xs.Nodup → m' ∉ xs →
      (xs.map (fun x => if x == n then m' else x)).Nodup := by
  intro xs
  induction xs with
  | nil => intro _ _; simp
  | cons x rest ih =>
    intro hnd hm
    have hx : x ∉ rest := (List.nodup_cons.mp hnd).1
    have hrest : rest.Nodup := (List.nodup_cons.mp hnd).2
    have hm1 : m' ≠ x := fun he => hm (by rw [he]; exact List.mem_cons_self x rest)
    have hm2 : m' ∉ rest := fun he => hm (List.mem_cons_of_mem x he)
    simp only [List.map_cons]
    rw [List.nodup_cons]
    refine ⟨?_, ih hrest hm2⟩
    intro hmem
    obtain ⟨y, hy, hye⟩ := List.mem_map.mp hmem
    by_cases hyn : (y == n) = true
    · rw [if_pos hyn] at hye
      by_cases hxn : (x == n) = true
      · have hyeq : y = n := by simpa using hyn
        have hxeq : x = n := by simpa using hxn
        refine hx ?_
        rw [hxeq, ← hyeq]
        exact hy
      · rw [if_neg hxn] at hye
        exact hm1 hye
    · rw [if_neg hyn] at hye
      by_cases hxn : (x == n) = true
      · rw [if_pos hxn] at hye
        refine hm2 ?_
        rw [← hye]
        exact hy
      · rw [if_neg hxn] at hye
        refine hx ?_
        rw [← hye]
        exact hy

-- ## Lemmas: handlers skip already-processed files

theorem process_jpg_skip (rr : Bool) (dir media_path : Str) (fs : FS) (f : MFile)
    (d : ExifData) (v : Str)
    (hL : pathToName dir media_path >>= fs.lookup = some f)
    (he : f.content.exif = some d) (hv : d.dateTimeOriginal = some v) :
    process_jpg rr dir media_path fs
      = ⟨[⟨.debug, "[Date Taken is already present (JPG)] ".toList ++ media_path⟩],
         [], fs, none⟩ := by
  unfold process_jpg
  simp only [hL, he, hv]
  rfl

theorem process_png_skip (rr : Bool) (dir media_path datetime_str : Str) (fs : FS) (f : MFile)
    (hL : pathToName dir media_path >>= fs.lookup = some f)
    (hct : (f.content.info.any fun kv => kv.1 == "Creation Time".toList) = true) :
    process_png rr dir media_path datetime_str fs
      = ⟨[⟨.debug, "[Date Taken is already present (PNG)] ".toList ++ media_path⟩],
         [], fs, none⟩ := by
  unfold process_png
  simp only [hL]
  rw [if_pos hct]

theorem process_gif_skip (rr : Bool) (world : World)
    (dir media_path backup_dir suffix : Str) (fs : FS)
    (hsk : (("_immich.".toList ++ suffix).isSuffixOf media_path) = true) :
    process_gif rr world dir media_path backup_dir suffix fs
      = ⟨[⟨.info, "[Skip already-processed (GIF)] ".toList ++ media_path⟩],
         [], fs, none⟩ := by
  unfold process_gif
  rw [if_pos hsk]

theorem process_mp4_skip (rr : Bool) (world : World)
    (dir media_path backup_dir suffix : Str) (fs : FS) (f : MFile)
    (hL : pathToName dir media_path >>= fs.lookup = some f)
    (hct : (f.content.streams.all fun st =>
      match st.tags with
      | none => false
      | some ts => ts.contains "creation_time".toList) = true) :
    process_mp4 rr world dir media_path backup_dir suffix fs = ⟨[], [], fs, none⟩ := by
  unfold process_mp4
  simp only [hL]
  rw [if_pos hct]

theorem processOne_skip (rr : Bool) (world : World) (dir backup_dir n : Str) (fs : FS)
    (g : MFile) (hL : fs.lookup n = some g) (hsep : '\\' ∉ n)
    (hsk : Skippable dir g) :
    ∃ logs, processOne rr world dir backup_dir n fs = ⟨logs, [], fs, none⟩ := by
  have hng := lookup_name fs n g hL
  have hpn : pathToName dir (winJoin dir n) >>= fs.lookup = some g := by
    rw [pathToName_winJoin dir n hsep]
    exact hL
  unfold Skippable at hsk
  rw [hng.1] at hsk
  simp only [processOne]
  by_cases hc1 : lowerStr (rsplitSuffix n) = "jpg".toList ∨
      lowerStr (rsplitSuffix n) = "jpeg".toList
  · rw [if_pos hc1] at hsk
    obtain ⟨d, v, he, hv⟩ := hsk
    rw [if_pos (show ((lowerStr (rsplitSuffix n) == "jpg".toList
        || lowerStr (rsplitSuffix n) == "jpeg".toList) = true) from by
      rcases hc1 with h | h <;> rw [h] <;> simp)]
    rw [process_jpg_skip rr dir (winJoin dir n) fs g d v hpn he hv]
    exact ⟨_, rfl⟩
  · rw [if_neg hc1] at hsk
    have hb1 : (lowerStr (rsplitSuffix n) == "jpg".toList
        || lowerStr (rsplitSuffix n) == "jpeg".toList) = false := by
      rw [beq_eq_false_iff_ne.mpr (fun h => hc1 (Or.inl h)),
        beq_eq_false_iff_ne.mpr (fun h => hc1 (Or.inr h))]
      rfl
    rw [if_neg (by rw [hb1]; decide)]
    by_cases hc2 : lowerStr (rsplitSuffix n) = "png".toList
    · rw [if_pos hc2] at hsk
      rw [if_pos (show (lowerStr (rsplitSuffix n) == "png".toList) = true from by
        rw [hc2]; simp)]
      simp only [hpn]
      rw [process_png_skip rr dir (winJoin dir n) _ fs g hpn hsk]
      exact ⟨_, rfl⟩
    · rw [if_neg hc2] at hsk
      rw [if_neg (by rw [beq_eq_false_iff_ne.mpr hc2]; decide)]
      by_cases hc3 : lowerStr (rsplitSuffix n) = "gif".toList
      · rw [if_pos hc3] at hsk
        rw [if_pos (show (lowerStr (rsplitSuffix n) == "gif".toList) = true from by
          rw [hc3]; simp)]
        rw [process_gif_skip rr world dir (winJoin dir n) backup_dir (rsplitSuffix n) fs hsk]
        exact ⟨_, rfl⟩
      · rw [if_neg hc3] at hsk
        rw [if_neg (by rw [beq_eq_false_iff_ne.mpr hc3]; decide)]
        by_cases hc4 : lowerStr (rsplitSuffix n) = "bmp".toList
        · rw [if_pos hc4] at hsk
          exact absurd hsk (by simp)
        · rw [if_neg hc4] at hsk
          rw [if_neg (by rw [beq_eq_false_iff_ne.mpr hc4]; decide)]
          by_cases hc5 : lowerStr (rsplitSuffix n) = "mp4".toList ∨
              lowerStr (rsplitSuffix n) = "m4v".toList
          · rw [if_pos hc5] at hsk
            rw [if_pos (show ((lowerStr (rsplitSuffix n) == "mp4".toList
                || lowerStr (rsplitSuffix n) == "m4v".toList) = true) from by
              rcases hc5 with h | h <;> rw [h] <;> simp)]
            rw [process_mp4_skip rr world dir (winJoin dir n) backup_dir (rsplitSuffix n)
              fs g hpn hsk]
            exact ⟨_, rfl⟩
          · rw [if_neg hc5] at hsk
            rw [if_neg (by
              rw [beq_eq_false_iff_ne.mpr (fun h => hc5 (Or.inl h)),
                beq_eq_false_iff_ne.mpr (fun h => hc5 (Or.inr h))]
              decide)]
            by_cases hc6 : lowerStr (rsplitSuffix n) = "mov".toList ∨
                lowerStr (rsplitSuffix n) = "tif".toList ∨
                lowerStr (rsplitSuffix n) = "heic".toList ∨
                lowerStr (rsplitSuffix n) = "webp".toList
            · rw [if_pos (show ((lowerStr (rsplitSuffix n) == "mov".toList
                  || lowerStr (rsplitSuffix n) == "tif".toList
                  || lowerStr (rsplitSuffix n) == "heic".toList
                  || lowerStr (rsplitSuffix n) == "webp".toList) = true) from by
                rcases hc6 with h | h | h | h <;> rw [h] <;> simp)]
              exact ⟨_, rfl⟩
            · rw [if_neg hc6] at hsk
              exact absurd hsk (by simp)

theorem runFiles_all_skip (rr : Bool) (world : World) (dir backup_dir : Str) :
    ∀ ns : List Str, ∀ fs : FS,
      (∀ n ∈ ns, ∃ g, fs.lookup n = some g) →
      (∀ g ∈ fs.media, '\\' ∉ g.name ∧ Skippable dir g) →
      ∃ logs, runFiles rr world dir backup_dir ns fs = ⟨logs, [], fs, none⟩ := by
  intro ns
  induction ns with
  | nil => intro fs _ _; exact ⟨[], rfl⟩
  | cons n rest ih =>
    intro fs hex hgood
    obtain ⟨g, hg⟩ := hex n (List.mem_cons_self n rest)
    have hgm := lookup_name fs n g hg
    obtain ⟨logs1, h1⟩ := processOne_skip rr world dir backup_dir n fs g hg
      (by rw [← hgm.1]; exact (hgood g hgm.2).1)
      (hgood g hgm.2).2
    obtain ⟨logs2, h2⟩ := ih fs (fun m hm => hex m (List.mem_cons_of_mem n hm)) hgood
    refine ⟨logs1 ++ logs2, ?_⟩
    simp only [runFiles, h1, h2]
    rfl

-- ## Lemmas: the real-run invariant (towards idempotence)

theorem resolve_some (dir n : Str) (fs : FS) (f : MFile)
    (h : pathToName dir (winJoin dir n) >>= fs.lookup = some f) :
    fs.lookup n = some f ∧ f.name = n ∧ f ∈ fs.media := by
  rcases Option.bind_eq_some.mp h with ⟨a, ha, hl⟩
  have hpa := pathToName_some dir (winJoin dir n) a ha
  have h2 : '\\' :: n = '\\' :: a := List.append_cancel_left (by
    have := hpa.1
    unfold winJoin at this
    exact this)
  have han : a = n := by
    injection h2 with _ h3
    exact h3.symm
  subst han
  exact ⟨hl, (lookup_name fs a f hl).1, (lookup_name fs a f hl).2⟩

theorem mem_name_unique :
    ∀ l : List MFile, (l.map (fun f => f.name)).Nodup →
      ∀ f g : MFile, f ∈ l → g ∈ l → f.name = g.name → f = g := by
  intro l
  induction l with
  | nil => intro _ f g hf _ _; exact absurd hf (List.not_mem_nil f)
  | cons x rest ih =>
    intro hnd f g hf hg he
    simp only [List.map_cons, List.nodup_cons] at hnd
    rcases List.mem_cons.mp hf with hf1 | hf1 <;>
      rcases List.mem_cons.mp hg with hg1 | hg1
    · rw [hf1, hg1]
    · subst hf1
      refine absurd ?_ hnd.1
      rw [he]
      exact List.mem_map_of_mem (fun f => f.name) hg1
    · subst hg1
      refine absurd ?_ hnd.1
      rw [← he]
      exact List.mem_map_of_mem (fun f => f.name) hf1
    · exact ih hnd.2 f g hf1 hg1 he

theorem lookup_of_mem_names (fs : FS) (n : Str)
    (h : n ∈ fs.media.map (fun f => f.name)) : ∃ g, fs.lookup n = some g := by
  rw [← Option.isSome_iff_exists]
  unfold FS.lookup
  rw [List.find?_isSome]
  obtain ⟨g, hg, hge⟩ := List.mem_map.mp h
  exact ⟨g, hg, by simp [hge]⟩

theorem rsplitSuffix_subset (n : Str) : ∀ c ∈ rsplitSuffix n, c ∈ n := by
  intro c hc
  unfold rsplitSuffix at hc
  rw [List.mem_reverse] at hc
  have h2 : c ∈ n.reverse := (List.takeWhile_prefix _).sublist.subset hc
  exact List.mem_reverse.mp h2

theorem contains_append_right (a : Str) (l : List Str) :
    ((l ++ [a]).contains a) = true := by
  induction l with
  | nil =>
    show (([a] : List Str).contains a) = true
    simp [List.contains]
  | cons x rest ih =>
    show (((x :: (rest ++ [a])) : List Str).contains a) = true
    by_cases hx : (a == x) = true
    · simp [List.contains, List.elem_cons, hx]
    · simp only [List.contains] at ih ⊢
      rw [List.elem_cons]
      rw [show (a == x) = false from by simpa using hx]
      exact ih

theorem map_name_subst_content (m : Str) (c : MediaContent) (l : List MFile) :
    ((l.map (fun f => if f.name == m then { f with content := c } else f)).map
      (fun f => f.name)) = l.map (fun f => f.name) := by
  induction l with
  | nil => rfl
  | cons f rest ih =>
    simp only [List.map_cons]
    rw [ih]
    by_cases hm : (f.name == m) = true
    · rw [if_pos hm]
    · rw [if_neg hm]

theorem map_name_subst_name (n m' : Str) (l : List MFile) :
    ((l.map (fun f => if f.name == n then { f with name := m' } else f)).map
      (fun f => f.name)) = (l.map (fun f => f.name)).map (fun x => if x == n then m' else x) := by
  induction l with
  | nil => rfl
  | cons f rest ih =>
    simp only [List.map_cons]
    rw [ih]
    by_cases hm : (f.name == n) = true
    · rw [if_pos hm, if_pos hm]
    · rw [if_neg hm, if_neg hm]

theorem runInv_drop (dir n : Str) (rest : List Str) (fs : FS)
    (hinv : RunInv dir (n :: rest) fs)
    (hskip : ∀ g ∈ fs.media, g.name = n → Skippable dir g) :
    RunInv dir rest fs := by
  obtain ⟨hbk, hnd, hmem⟩ := hinv
  refine ⟨hbk, hnd, ?_⟩
  intro g hg
  obtain ⟨h1, h2, h3⟩ := hmem g hg
  refine ⟨h1, h2, ?_⟩
  rcases h3 with h3 | h3
  · exact Or.inl h3
  · rcases List.mem_cons.mp h3 with h4 | h4
    · exact Or.inl (hskip g hg h4)
    · exact Or.inr h4

theorem runInv_rewrite_any (dir : Str) (rem : List Str) (m : Str) (fs : FS) (c : MediaContent)
    (hinv : RunInv dir rem fs)
    (hskip : ∀ g : MFile, g.name = m → g.content = c → Skippable dir g) :
    RunInv dir rem (fs.rewriteContent m c) := by
  obtain ⟨hbk, hnd, hmem⟩ := hinv
  refine ⟨hbk, ?_, ?_⟩
  · show ((fs.media.map (fun f => if f.name == m then { f with content := c } else f)).map
      (fun f => f.name)).Nodup
    rw [map_name_subst_content]
    exact hnd
  · intro g hg
    have hg' : g ∈ fs.media.map (fun f => if f.name == m then { f with content := c } else f) := hg
    obtain ⟨g0, hg0, hge0⟩ := List.mem_map.mp hg'
    have hge : (if g0.name == m then ({ g0 with content := c } : MFile) else g0) = g := hge0
    by_cases hm : (g0.name == m) = true
    · rw [if_pos hm] at hge
      have hname : g.name = g0.name := by rw [← hge]
      have hnm : g0.name = m := by simpa using hm
      obtain ⟨h1, h2, _⟩ := hmem g0 hg0
      refine ⟨by rw [hname]; exact h1, by rw [hname]; exact h2, Or.inl ?_⟩
      exact hskip g (by rw [hname, hnm]) (by rw [← hge])
    · rw [if_neg hm] at hge
      rw [← hge]
      exact hmem g0 hg0

theorem runInv_rewrite_drop (dir n : Str) (rest : List Str) (fs : FS) (c : MediaContent)
    (hinv : RunInv dir (n :: rest) fs)
    (hskip : ∀ g : MFile, g.name = n → g.content = c → Skippable dir g) :
    RunInv dir rest (fs.rewriteContent n c) := by
  refine runInv_drop dir n rest (fs.rewriteContent n c)
    (runInv_rewrite_any dir (n :: rest) n fs c hinv hskip) ?_
  intro g hg hgn
  have hg' : g ∈ fs.media.map (fun f => if f.name == n then { f with content := c } else f) := hg
  obtain ⟨g0, hg0, hge0⟩ := List.mem_map.mp hg'
  have hge : (if g0.name == n then ({ g0 with content := c } : MFile) else g0) = g := hge0
  by_cases hm : (g0.name == n) = true
  · rw [if_pos hm] at hge
    exact hskip g hgn (by rw [← hge])
  · rw [if_neg hm] at hge
    rw [← hge] at hgn
    exact absurd hgn (by simpa using hm)

theorem create_move_members (dir n m' : Str) (fs : FS) (c : MediaContent) (ct mt : Nat) (fs2 : FS)
    (hsep : '\\' ∉ m')
    (hmv : (fs.createOrReplace dir (winJoin dir m') c ct mt).moveToBackup n = some fs2) :
    fs2.backupDirExists = fs.backupDirExists ∧
    ((fs.media.map (fun f => f.name)).Nodup → (fs2.media.map (fun f => f.name)).Nodup) ∧
    ∀ g ∈ fs2.media, g.name ≠ n ∧ ((g.name = m' ∧ g.content = c) ∨ g ∈ fs.media) := by
  have hpn := pathToName_winJoin dir m' hsep
  have hfs2 := moveToBackup_some _ n fs2 hmv
  by_cases hany : (fs.media.any fun f => f.name == m') = true
  · have hfs1 : fs.createOrReplace dir (winJoin dir m') c ct mt
        = { fs with media := (fs.media.map
            (fun f => if f.name == m' then { f with content := c } else f)) } := by
      unfold FS.createOrReplace
      simp only [hpn]
      rw [if_pos hany]
    rw [hfs1] at hfs2
    subst hfs2
    refine ⟨rfl, ?_, ?_⟩
    · intro hnd
      show (((fs.media.map (fun f => if f.name == m' then { f with content := c } else f)).filter
        (fun f => f.name != n)).map (fun f => f.name)).Nodup
      refine List.Nodup.sublist (List.Sublist.map _ (List.filter_sublist _)) ?_
      rw [map_name_subst_content]
      exact hnd
    · intro g hg
      have hg' : g ∈ (fs.media.map
          (fun f => if f.name == m' then { f with content := c } else f)).filter
          (fun f => f.name != n) := hg
      obtain ⟨hgm, hgn0⟩ := List.mem_filter.mp hg'
      have hgn : (g.name != n) = true := hgn0
      refine ⟨by simpa using hgn, ?_⟩
      obtain ⟨g0, hg0, hge0⟩ := List.mem_map.mp hgm
      have hge : (if g0.name == m' then ({ g0 with content := c } : MFile) else g0) = g := hge0
      by_cases hm : (g0.name == m') = true
      · rw [if_pos hm] at hge
        refine Or.inl ⟨?_, ?_⟩
        · rw [← hge]
          show g0.name = m'
          simpa using hm
        · rw [← hge]
      · rw [if_neg hm] at hge
        rw [← hge]
        exact Or.inr hg0
  · have hfs1 : fs.createOrReplace dir (winJoin dir m') c ct mt
        = { fs with media := fs.media ++ [(⟨m', c, ct, mt⟩ : MFile)] } := by
      unfold FS.createOrReplace
      simp only [hpn]
      rw [if_neg hany]
    rw [hfs1] at hfs2
    subst hfs2
    refine ⟨rfl, ?_, ?_⟩
    · intro hnd
      show (((fs.media ++ [(⟨m', c, ct, mt⟩ : MFile)]).filter (fun f => f.name != n)).map
        (fun f => f.name)).Nodup
      refine List.Nodup.sublist (List.Sublist.map _ (List.filter_sublist _)) ?_
      rw [List.map_append]
      refine List.Nodup.append hnd (by simp) ?_
      intro a ha hb
      have hab : a = m' := by simpa using hb
      rw [hab] at ha
      obtain ⟨g0, hg0, hge⟩ := List.mem_map.mp ha
      exact hany (List.any_eq_true.mpr ⟨g0, hg0, by simp [hge]⟩)
    · intro g hg
      have hg' : g ∈ (fs.media ++ [(⟨m', c, ct, mt⟩ : MFile)]).filter (fun f => f.name != n) := hg
      obtain ⟨hgm, hgn0⟩ := List.mem_filter.mp hg'
      have hgn : (g.name != n) = true := hgn0
      refine ⟨by simpa using hgn, ?_⟩
      rcases List.mem_append.mp hgm with hgo | hgnew
      · exact Or.inr hgo
      · have hgv : g = (⟨m', c, ct, mt⟩ : MFile) := by simpa using hgnew
        rw [hgv]
        exact Or.inl ⟨rfl, rfl⟩

theorem runInv_create_move (dir n : Str) (rest : List Str) (m' : Str) (fs : FS)
    (c : MediaContent) (ct mt : Nat) (fs2 : FS)
    (hinv : RunInv dir (n :: rest) fs)
    (hdot : '.' ∈ m') (hsep : '\\' ∉ m')
    (hskipNew : ∀ g : MFile, g.name = m' → g.content = c → Skippable dir g)
    (hmv : (fs.createOrReplace dir (winJoin dir m') c ct mt).moveToBackup n = some fs2) :
    RunInv dir rest fs2 := by
  obtain ⟨hbk, hnd, hmem⟩ := hinv
  obtain ⟨hbkeq, hndf, hmemf⟩ := create_move_members dir n m' fs c ct mt fs2 hsep hmv
  refine ⟨by rw [hbkeq]; exact hbk, hndf hnd, ?_⟩
  intro g hg
  obtain ⟨hgn, hcase⟩ := hmemf g hg
  rcases hcase with ⟨h1, h2⟩ | hgo
  · exact ⟨by rw [h1]; exact hdot, by rw [h1]; exact hsep, Or.inl (hskipNew g h1 h2)⟩
  · obtain ⟨h1, h2, h3⟩ := hmem g hgo
    refine ⟨h1, h2, ?_⟩
    rcases h3 with h3 | h3
    · exact Or.inl h3
    · rcases List.mem_cons.mp h3 with h4 | h4
      · exact absurd h4 hgn
      · exact Or.inr h4

theorem runInv_create_move_rewrite (dir n : Str) (rest : List Str) (m' : Str) (fs : FS)
    (c c2 : MediaContent) (ct mt : Nat) (fs2 : FS)
    (hinv : RunInv dir (n :: rest) fs)
    (hdot : '.' ∈ m') (hsep : '\\' ∉ m')
    (hskipNew : ∀ g : MFile, g.name = m' → g.content = c2 → Skippable dir g)
    (hmv : (fs.createOrReplace dir (winJoin dir m') c ct mt).moveToBackup n = some fs2) :
    RunInv dir rest (fs2.rewriteContent m' c2) := by
  obtain ⟨hbk, hnd, hmem⟩ := hinv
  obtain ⟨hbkeq, hndf, hmemf⟩ := create_move_members dir n m' fs c ct mt fs2 hsep hmv
  refine ⟨?_, ?_, ?_⟩
  · show fs2.backupDirExists = true
    rw [hbkeq]
    exact hbk
  · show ((fs2.media.map (fun f => if f.name == m' then { f with content := c2 } else f)).map
      (fun f => f.name)).Nodup
    rw [map_name_subst_content]
    exact hndf hnd
  · intro g hg
    have hg' : g ∈ fs2.media.map
        (fun f => if f.name == m' then { f with content := c2 } else f) := hg
    obtain ⟨g1, hg1, hge0⟩ := List.mem_map.mp hg'
    have hge : (if g1.name == m' then ({ g1 with content := c2 } : MFile) else g1) = g := hge0
    by_cases hm : (g1.name == m') = true
    · rw [if_pos hm] at hge
      have hname : g.name = m' := by
        rw [← hge]
        show g1.name = m'
        simpa using hm
      refine ⟨by rw [hname]; exact hdot, by rw [hname]; exact hsep, Or.inl ?_⟩
      exact hskipNew g hname (by rw [← hge])
    · rw [if_neg hm] at hge
      obtain ⟨hgn, hcase⟩ := hmemf g1 hg1
      rcases hcase with ⟨h1, _⟩ | hgo
      · exact absurd h1 (by simpa using hm)
      · obtain ⟨h1, h2, h3⟩ := hmem g1 hgo
        rw [← hge]
        refine ⟨h1, h2, ?_⟩
        rcases h3 with h3 | h3
        · exact Or.inl h3
        · rcases List.mem_cons.mp h3 with h4 | h4
          · exact absurd h4 hgn
          · exact Or.inr h4

theorem runInv_rename_move (dir n : Str) (rest : List Str) (m' b : Str) (fs : FS)
    (c : MediaContent) (fs2 fs3 : FS)
    (hinv : RunInv dir (n :: rest) fs)
    (hdot : '.' ∈ m') (hsep : '\\' ∉ m')
    (hskipNew : ∀ g : MFile, g.name = m' → g.content = c → Skippable dir g)
    (hfresh : m' ∉ fs.media.map (fun f => f.name))
    (hfs2 : fs2 = { fs.rewriteContent n c with media := ((fs.rewriteContent n c).media.map
        (fun f => if f.name == n then { f with name := m' } else f)) })
    (hmv : fs2.moveToBackup b = some fs3) :
    RunInv dir rest fs3 := by
  obtain ⟨hbk, hnd, hmem⟩ := hinv
  have hfs3 := moveToBackup_some fs2 b fs3 hmv
  subst hfs3
  subst hfs2
  refine ⟨hbk, ?_, ?_⟩
  · show ((((fs.rewriteContent n c).media.map
      (fun f => if f.name == n then { f with name := m' } else f)).filter
      (fun f => f.name != b)).map (fun f => f.name)).Nodup
    refine List.Nodup.sublist (List.Sublist.map _ (List.filter_sublist _)) ?_
    rw [map_name_subst_name]
    show (((fs.media.map (fun f => if f.name == n then { f with content := c } else f)).map
      (fun f => f.name)).map (fun x => if x == n then m' else x)).Nodup
    rw [map_name_subst_content]
    exact nodup_subst n m' (fs.media.map (fun f => f.name)) hnd hfresh
  · intro g hg
    have hg' : g ∈ ((fs.rewriteContent n c).media.map
        (fun f => if f.name == n then { f with name := m' } else f)).filter
        (fun f => f.name != b) := hg
    obtain ⟨hgm, _⟩ := List.mem_filter.mp hg'
    obtain ⟨g1, hg1, hge10⟩ := List.mem_map.mp hgm
    have hge1 : (if g1.name == n then ({ g1 with name := m' } : MFile) else g1) = g := hge10
    have hg1' : g1 ∈ fs.media.map
        (fun f => if f.name == n then { f with content := c } else f) := hg1
    obtain ⟨g0, hg0, hge00⟩ := List.mem_map.mp hg1'
    have hge0 : (if g0.name == n then ({ g0 with content := c } : MFile) else g0) = g1 := hge00
    by_cases hm0 : (g0.name == n) = true
    · rw [if_pos hm0] at hge0
      have hg1n : g1.name = n := by
        rw [← hge0]
        show g0.name = n
        simpa using hm0
      rw [if_pos (by simp [hg1n])] at hge1
      refine ⟨by rw [← hge1]; exact hdot, by rw [← hge1]; exact hsep, Or.inl ?_⟩
      refine hskipNew g (by rw [← hge1]) ?_
      rw [← hge1]
      show g1.content = c
      rw [← hge0]
    · rw [if_neg hm0] at hge0
      have hg1n : (g1.name == n) = false := by
        rw [← hge0]
        simpa using hm0
      rw [if_neg (by simp [hg1n])] at hge1
      rw [← hge1, ← hge0]
      obtain ⟨h1, h2, h3⟩ := hmem g0 hg0
      refine ⟨h1, h2, ?_⟩
      rcases h3 with h3 | h3
      · exact Or.inl h3
      · rcases List.mem_cons.mp h3 with h4 | h4
        · exact absurd h4 (by simpa using hm0)
        · exact Or.inr h4

theorem process_jpg_real_inv (dir n : Str) (rest : List Str) (fs : FS)
    (hs : lowerStr (rsplitSuffix n) = "jpg".toList ∨ lowerStr (rsplitSuffix n) = "jpeg".toList)
    (hinv : RunInv dir (n :: rest) fs)
    (hok : (process_jpg true dir (winJoin dir n) fs).err = none) :
    RunInv dir rest (process_jpg true dir (winJoin dir n) fs).fs := by
  obtain ⟨hbk, hnd, hmem⟩ := hinv
  unfold process_jpg at hok ⊢
  rcases Option.eq_none_or_eq_some (pathToName dir (winJoin dir n) >>= fs.lookup) with hp | ⟨f, hp⟩
  · simp only [hp] at hok
    exact absurd hok (by simp)
  · obtain ⟨hlk, hfn, hfm⟩ := resolve_some dir n fs f hp
    simp only [hp] at hok ⊢
    rcases Option.eq_none_or_eq_some f.content.exif with hx | ⟨d, hx⟩
    · simp only [hx, DEFAULT_EXIF] at hok ⊢
      rw [if_pos trivial]
      rw [hfn]
      refine runInv_rewrite_drop dir n rest fs _ ⟨hbk, hnd, hmem⟩ ?_
      intro g hgn hgc
      unfold Skippable
      rw [hgn, if_pos hs]
      exact ⟨_, get_earliest_date_str f EXIF_TIME_FORMAT, by rw [hgc], rfl⟩
    · rcases Option.eq_none_or_eq_some d.dateTimeOriginal with hv | ⟨v, hv⟩
      · simp only [hx, hv] at hok ⊢
        rw [if_pos trivial]
        rw [hfn]
        refine runInv_rewrite_drop dir n rest fs _ ⟨hbk, hnd, hmem⟩ ?_
        intro g hgn hgc
        unfold Skippable
        rw [hgn, if_pos hs]
        exact ⟨_, get_earliest_date_str f EXIF_TIME_FORMAT, by rw [hgc], rfl⟩
      · simp only [hx, hv] at hok ⊢
        apply runInv_drop dir n rest fs ⟨hbk, hnd, hmem⟩
        intro g hg hgn
        have hgu : g = f := mem_name_unique fs.media hnd g f hg hfm (by rw [hgn, hfn])
        rw [hgu]
        unfold Skippable
        rw [hfn, if_pos hs]
        exact ⟨d, v, hx, hv⟩

theorem process_png_real_inv (dir n ds : Str) (rest : List Str) (fs : FS)
    (hn1 : ¬(lowerStr (rsplitSuffix n) = "jpg".toList ∨ lowerStr (rsplitSuffix n) = "jpeg".toList))
    (hs : lowerStr (rsplitSuffix n) = "png".toList)
    (hinv : RunInv dir (n :: rest) fs)
    (hok : (process_png true dir (winJoin dir n) ds fs).err = none) :
    RunInv dir rest (process_png true dir (winJoin dir n) ds fs).fs := by
  obtain ⟨hbk, hnd, hmem⟩ := hinv
  unfold process_png at hok ⊢
  rcases Option.eq_none_or_eq_some (pathToName dir (winJoin dir n) >>= fs.lookup) with hp | ⟨f, hp⟩
  · simp only [hp] at hok
    exact absurd hok (by simp)
  · obtain ⟨hlk, hfn, hfm⟩ := resolve_some dir n fs f hp
    simp only [hp] at hok ⊢
    by_cases hct : (f.content.info.any fun kv => kv.1 == "Creation Time".toList) = true
    · rw [if_pos hct]
      apply runInv_drop dir n rest fs ⟨hbk, hnd, hmem⟩
      intro g hg hgn
      have hgu : g = f := mem_name_unique fs.media hnd g f hg hfm (by rw [hgn, hfn])
      rw [hgu]
      unfold Skippable
      rw [hfn, if_neg hn1, if_pos hs]
      exact hct
    · rw [if_neg hct, if_pos trivial]
      rw [hfn]
      refine runInv_rewrite_drop dir n rest fs _ ⟨hbk, hnd, hmem⟩ ?_
      intro g hgn hgc
      unfold Skippable
      rw [hgn, if_neg hn1, if_pos hs]
      rw [hgc]
      simp

theorem process_mp4_real_inv (world : World) (dir n backup_dir : Str) (rest : List Str) (fs : FS)
    (hdir : ∀ c ∈ dir, c ≠ '.')
    (hn1 : ¬(lowerStr (rsplitSuffix n) = "jpg".toList ∨ lowerStr (rsplitSuffix n) = "jpeg".toList))
    (hn2 : ¬ lowerStr (rsplitSuffix n) = "png".toList)
    (hn3 : ¬ lowerStr (rsplitSuffix n) = "gif".toList)
    (hn4 : ¬ lowerStr (rsplitSuffix n) = "bmp".toList)
    (hs : lowerStr (rsplitSuffix n) = "mp4".toList ∨ lowerStr (rsplitSuffix n) = "m4v".toList)
    (hinv : RunInv dir (n :: rest) fs)
    (hok : (process_mp4 true world dir (winJoin dir n) backup_dir (rsplitSuffix n) fs).err = none) :
    RunInv dir rest (process_mp4 true world dir (winJoin dir n) backup_dir (rsplitSuffix n) fs).fs := by
  obtain ⟨hbk, hnd, hmem⟩ := hinv
  unfold process_mp4 at hok ⊢
  rcases Option.eq_none_or_eq_some (pathToName dir (winJoin dir n) >>= fs.lookup) with hp | ⟨f, hp⟩
  · simp only [hp] at hok
    exact absurd hok (by simp)
  · obtain ⟨hlk, hfn, hfm⟩ := resolve_some dir n fs f hp
    simp only [hp, mp4_output_args] at hok ⊢
    by_cases hct : (f.content.streams.all fun s =>
        match s.tags with
        | none => false
        | some ts => ts.contains "creation_time".toList) = true
    · rw [if_pos hct]
      apply runInv_drop dir n rest fs ⟨hbk, hnd, hmem⟩
      intro g hg hgn
      have hgu : g = f := mem_name_unique fs.media hnd g f hg hfm (by rw [hgn, hfn])
      rw [hgu]
      unfold Skippable
      rw [hfn, if_neg hn1, if_neg hn2, if_neg hn3, if_neg hn4, if_pos hs]
      exact hct
    · rw [if_neg hct] at hok ⊢
      rw [if_pos trivial] at hok ⊢
      by_cases hw : world.ffmpegOk (immich_new_path (winJoin dir n) (rsplitSuffix n)) = true
      · rw [if_pos hw] at hok ⊢
        rw [hfn] at hok ⊢
        have hdotn : '.' ∈ n := by
          have h0 := (hmem f hfm).1
          rw [hfn] at h0
          exact h0
        have hsepn : '\\' ∉ n := by
          have h0 := (hmem f hfm).2.1
          rw [hfn] at h0
          exact h0
        obtain ⟨stem, hstem, hds⟩ := name_decomp n hdotn
        have hrepl_sep : '\\' ∉ "_immich.".toList ++ rsplitSuffix n := by
          intro hm
          rcases List.mem_append.mp hm with h1 | h1
          · exact absurd h1 (by decide)
          · exact hsepn (rsplitSuffix_subset n _ h1)
        set m' := replaceAll ('.' :: rsplitSuffix n) ("_immich.".toList ++ rsplitSuffix n) n with hm'
        have hpath : immich_new_path (winJoin dir n) (rsplitSuffix n) = winJoin dir m' := by
          rw [hm']
          unfold immich_new_path pyReplace
          exact marker_path_distributes dir n (rsplitSuffix n) _ hdir
        have hys0 : ∃ ys, m' = ys ++ ("_immich.".toList ++ rsplitSuffix n) := by
          rw [hm']
          exact marker_name_ends n hdotn _
        obtain ⟨ys, hys⟩ := hys0
        have hsepm : '\\' ∉ m' := by
          rw [hm']
          exact marker_name_sep_free n (rsplitSuffix n) _ hsepn hrepl_sep
        have hdotm : '.' ∈ m' := by
          rw [hys]
          exact List.mem_append.mpr (Or.inr (List.mem_append.mpr (Or.inl (by decide))))
        have hrsp : rsplitSuffix m' = rsplitSuffix n := by
          apply rsplit_of_ends_dot m' (rsplitSuffix n) hds
          exact ⟨ys ++ "_immich".toList, by rw [hys, List.append_assoc]; rfl⟩
        rw [hpath] at hok ⊢
        rcases Option.eq_none_or_eq_some
            ((fs.createOrReplace dir (winJoin dir m')
              { f.content with streams := (f.content.streams.map (fun s =>
                { s with tags := some (match s.tags with
                    | none => ["creation_time".toList]
                    | some ts => if ts.contains "creation_time".toList then ts
                      else ts ++ ["creation_time".toList]) })) }
              f.ctime f.mtime).moveToBackup n)
          with hmv | ⟨fs2, hmv⟩
        · simp only [hmv] at hok
          exact absurd hok (by simp)
        · simp only [hmv] at hok ⊢
          refine runInv_create_move dir n rest m' fs _ f.ctime f.mtime fs2
            ⟨hbk, hnd, hmem⟩ hdotm hsepm ?_ hmv
          intro g hgn hgc
          unfold Skippable
          rw [hgn, hrsp, if_neg hn1, if_neg hn2, if_neg hn3, if_neg hn4, if_pos hs]
          rw [hgc]
          show ((f.content.streams.map (fun s =>
            { s with tags := some (match s.tags with
                | none => ["creation_time".toList]
                | some ts => if ts.contains "creation_time".toList then ts
                  else ts ++ ["creation_time".toList]) })).all (fun st =>
            match st.tags with
            | none => false
            | some ts => ts.contains "creation_time".toList)) = true
          rw [List.all_eq_true]
          intro st hst
          obtain ⟨s, hsmem, hse0⟩ := List.mem_map.mp hst
          have hse : ({ s with tags := some (match s.tags with
              | none => ["creation_time".toList]
              | some ts => if ts.contains "creation_time".toList then ts
                else ts ++ ["creation_time".toList]) } : MStream) = st := hse0
          rw [← hse]
          show ((match s.tags with
            | none => ["creation_time".toList]
            | some ts => if ts.contains "creation_time".toList then ts
              else ts ++ ["creation_time".toList]).contains "creation_time".toList) = true
          rcases Option.eq_none_or_eq_some s.tags with hst2 | ⟨ts, hst2⟩
          · simp only [hst2]
            decide
          · simp only [hst2]
            by_cases hco : (ts.contains "creation_time".toList) = true
            · rw [if_pos hco]
              exact hco
            · rw [if_neg hco]
              exact contains_append_right _ ts
      · rw [if_neg hw] at hok
        exact absurd hok (by simp)

theorem process_gif_real_inv (world : World) (dir n backup_dir : Str) (rest : List Str) (fs : FS)
    (hdir : ∀ c ∈ dir, c ≠ '.')
    (hn1 : ¬(lowerStr (rsplitSuffix n) = "jpg".toList ∨ lowerStr (rsplitSuffix n) = "jpeg".toList))
    (hn2 : ¬ lowerStr (rsplitSuffix n) = "png".toList)
    (hs : lowerStr (rsplitSuffix n) = "gif".toList)
    (hinv : RunInv dir (n :: rest) fs)
    (hok : (process_gif true world dir (winJoin dir n) backup_dir (rsplitSuffix n) fs).err = none) :
    RunInv dir rest (process_gif true world dir (winJoin dir n) backup_dir (rsplitSuffix n) fs).fs := by
  obtain ⟨hbk, hnd, hmem⟩ := hinv
  unfold process_gif at hok ⊢
  by_cases hsk : (("_immich.".toList ++ rsplitSuffix n).isSuffixOf (winJoin dir n)) = true
  · rw [if_pos hsk]
    apply runInv_drop dir n rest fs ⟨hbk, hnd, hmem⟩
    intro g hg hgn
    unfold Skippable
    rw [hgn, if_neg hn1, if_neg hn2, if_pos hs]
    exact hsk
  · rw [if_neg hsk] at hok ⊢
    rcases Option.eq_none_or_eq_some (pathToName dir (winJoin dir n) >>= fs.lookup) with hp | ⟨f, hp⟩
    · simp only [hp] at hok
      exact absurd hok (by simp)
    · obtain ⟨hlk, hfn, hfm⟩ := resolve_some dir n fs f hp
      simp only [hp] at hok ⊢
      rw [if_pos trivial] at hok ⊢
      by_cases hw : world.exiftoolOk (winJoin dir n) = true
      · rw [if_pos hw] at hok ⊢
        rw [hfn] at hok ⊢
        set C := { f.content with xmpDateTimeOriginal := (some (get_earliest_date_str f EXIF_TIME_FORMAT)) } with hC
        have hdotn : '.' ∈ n := by
          have h0 := (hmem f hfm).1
          rw [hfn] at h0
          exact h0
        have hsepn : '\\' ∉ n := by
          have h0 := (hmem f hfm).2.1
          rw [hfn] at h0
          exact h0
        obtain ⟨stem, hstem, hds⟩ := name_decomp n hdotn
        have hrepl_sep : '\\' ∉ "_immich.".toList ++ rsplitSuffix n := by
          intro hm
          rcases List.mem_append.mp hm with h1 | h1
          · exact absurd h1 (by decide)
          · exact hsepn (rsplitSuffix_subset n _ h1)
        set m' := replaceAll ('.' :: rsplitSuffix n) ("_immich.".toList ++ rsplitSuffix n) n with hm'
        have hpath : immich_new_path (winJoin dir n) (rsplitSuffix n) = winJoin dir m' := by
          rw [hm']
          unfold immich_new_path pyReplace
          exact marker_path_distributes dir n (rsplitSuffix n) _ hdir
        have hys0 : ∃ ys, m' = ys ++ ("_immich.".toList ++ rsplitSuffix n) := by
          rw [hm']
          exact marker_name_ends n hdotn _
        obtain ⟨ys, hys⟩ := hys0
        have hsepm : '\\' ∉ m' := by
          rw [hm']
          exact marker_name_sep_free n (rsplitSuffix n) _ hsepn hrepl_sep
        have hdotm : '.' ∈ m' := by
          rw [hys]
          exact List.mem_append.mpr (Or.inr (List.mem_append.mpr (Or.inl (by decide))))
        have hrsp : rsplitSuffix m' = rsplitSuffix n := by
          apply rsplit_of_ends_dot m' (rsplitSuffix n) hds
          exact ⟨ys ++ "_immich".toList, by rw [hys, List.append_assoc]; rfl⟩
        rw [hpath] at hok ⊢
        rcases Option.eq_none_or_eq_some
            ((fs.rewriteContent n C).renameTo dir n (winJoin dir m'))
          with hr | ⟨fs2, hr⟩
        · simp only [hr] at hok
          exact absurd hok (by simp)
        · simp only [hr] at hok ⊢
          rcases renameTo_some _ dir n (winJoin dir m') fs2 hr with
            ⟨hpa, hfs2⟩ | ⟨n', hpn', hne, hany, hfs2⟩ | ⟨hpa, _⟩
          · exfalso
            have hmn : m' = n := Option.some.inj ((pathToName_winJoin dir m' hsepm).symm.trans hpa)
            apply hsk
            have hnn : n = ys ++ ("_immich.".toList ++ rsplitSuffix n) := by
              rw [hmn] at hys
              exact hys
            refine (List.isSuffixOf_iff_suffix).mpr ⟨dir ++ '\\' :: ys, ?_⟩
            show (dir ++ '\\' :: ys) ++ ("_immich.".toList ++ rsplitSuffix n) = winJoin dir n
            unfold winJoin
            conv_rhs => rw [hnn]
            rw [List.append_assoc]
            rfl
          · have hnm : m' = n' :=
              Option.some.inj ((pathToName_winJoin dir m' hsepm).symm.trans hpn')
            subst hnm
            have hfresh : m' ∉ fs.media.map (fun f => f.name) := by
              intro hmm
              obtain ⟨g0, hg0, hge⟩ := List.mem_map.mp hmm
              have hmem1 : (if g0.name == n then ({ g0 with content := C } : MFile) else g0)
                  ∈ (fs.rewriteContent n C).media :=
                List.mem_map_of_mem _ hg0
              have hname1 : (if g0.name == n then ({ g0 with content := C } : MFile) else g0).name
                  = m' := by
                by_cases h0 : (g0.name == n) = true
                · rw [if_pos h0]
                  exact hge
                · rw [if_neg h0]
                  exact hge
              have hanytrue : ((fs.rewriteContent n C).media.any fun f => f.name == m') = true :=
                List.any_eq_true.mpr ⟨_, hmem1, by simpa using hname1⟩
              rw [hany] at hanytrue
              exact Bool.false_ne_true hanytrue
            rcases Option.eq_none_or_eq_some
                (fs2.moveToBackup (n ++ EXIFTOOL_BACKUP_SUFFIX)) with hmv | ⟨fs3, hmv⟩
            · simp only [hmv] at hok
              exact absurd hok (by simp)
            · simp only [hmv] at hok ⊢
              refine runInv_rename_move dir n rest m' (n ++ EXIFTOOL_BACKUP_SUFFIX) fs C fs2 fs3
                ⟨hbk, hnd, hmem⟩ hdotm hsepm ?_ hfresh hfs2 hmv
              intro g hgn hgc
              unfold Skippable
              rw [hgn, hrsp, if_neg hn1, if_neg hn2, if_pos hs]
              exact (List.isSuffixOf_iff_suffix).mpr ⟨dir ++ '\\' :: ys, by
                show (dir ++ '\\' :: ys) ++ ("_immich.".toList ++ rsplitSuffix n) = winJoin dir m'
                unfold winJoin
                conv_rhs => rw [hys]
                rw [List.append_assoc]
                rfl⟩
          · rw [pathToName_winJoin dir m' hsepm] at hpa
            exact absurd hpa (by simp)
      · rw [if_neg hw] at hok
        exact absurd hok (by simp)

theorem process_bmp_real_inv (dir n ds backup_dir : Str) (rest : List Str) (fs : FS)
    (hdir : ∀ c ∈ dir, c ≠ '.')
    (hs : lowerStr (rsplitSuffix n) = "bmp".toList)
    (hinv : RunInv dir (n :: rest) fs)
    (hok : (process_bmp true dir (winJoin dir n) ds backup_dir (rsplitSuffix n) fs).err = none) :
    RunInv dir rest (process_bmp true dir (winJoin dir n) ds backup_dir (rsplitSuffix n) fs).fs := by
  obtain ⟨hbk, hnd, hmem⟩ := hinv
  simp only [process_bmp] at hok ⊢
  rw [if_pos trivial] at hok ⊢
  rcases Option.eq_none_or_eq_some (pathToName dir (winJoin dir n) >>= fs.lookup) with hp | ⟨f, hp⟩
  · simp only [hp] at hok
    exact absurd hok (by simp)
  · obtain ⟨hlk, hfn, hfm⟩ := resolve_some dir n fs f hp
    simp only [hp] at hok ⊢
    rw [hfn] at hok ⊢
    have hdotn : '.' ∈ n := by
      have h0 := (hmem f hfm).1
      rw [hfn] at h0
      exact h0
    have hsepn : '\\' ∉ n := by
      have h0 := (hmem f hfm).2.1
      rw [hfn] at h0
      exact h0
    obtain ⟨stem, hstem, hds⟩ := name_decomp n hdotn
    set m' := replaceAll ('.' :: rsplitSuffix n) ("_bmp.png".toList) n with hm'
    have hpath : bmp_new_path (winJoin dir n) (rsplitSuffix n) = winJoin dir m' := by
      rw [hm']
      unfold bmp_new_path pyReplace
      exact marker_path_distributes dir n (rsplitSuffix n) _ hdir
    have hys0 : ∃ ys, m' = ys ++ "_bmp.png".toList := by
      rw [hm']
      exact marker_name_ends n hdotn _
    obtain ⟨ys, hys⟩ := hys0
    have hsepm : '\\' ∉ m' := by
      rw [hm']
      exact marker_name_sep_free n (rsplitSuffix n) _ hsepn (by decide)
    have hdotm : '.' ∈ m' := by
      rw [hys]
      exact List.mem_append.mpr (Or.inr (by decide))
    have hrsp : rsplitSuffix m' = "png".toList := by
      apply rsplit_of_ends_dot m' "png".toList (by decide)
      exact ⟨ys ++ "_bmp".toList, by rw [hys, List.append_assoc]; rfl⟩
    rw [hpath] at hok ⊢
    rcases Option.eq_none_or_eq_some
        ((fs.createOrReplace dir (winJoin dir m') {} f.ctime f.mtime).moveToBackup n)
      with hmv | ⟨fs2, hmv⟩
    · simp only [hmv] at hok
      exact absurd hok (by simp)
    · simp only [hmv] at hok ⊢
      unfold process_png at hok ⊢
      have hmn : m' ≠ n := by
        intro he
        rw [← he, hrsp] at hs
        exact absurd hs (by decide)
      obtain ⟨f', hf'lk, hf'n, hf'c⟩ := lookup_createOrReplace_self fs dir (winJoin dir m') {}
        f.ctime f.mtime m' (pathToName_winJoin dir m' hsepm)
      have hfs2eq := moveToBackup_some _ n fs2 hmv
      have hlk2 : fs2.lookup m' = some f' := by
        rw [hfs2eq]
        show ((fs.createOrReplace dir (winJoin dir m') {} f.ctime f.mtime).media.filter
          (fun g => g.name != n)).find? (fun g => g.name == m') = some f'
        rw [find?_filter_ne n m' hmn]
        exact hf'lk
      have hres2 : pathToName dir (winJoin dir m') >>= fs2.lookup = some f' := by
        rw [pathToName_winJoin dir m' hsepm]
        exact hlk2
      simp only [hres2] at hok ⊢
      rw [if_neg (show ¬((f'.content.info.any fun kv => kv.1 == "Creation Time".toList) = true) from by
        rw [hf'c]
        decide)] at hok ⊢
      rw [if_pos trivial] at hok ⊢
      rw [hf'n] at hok ⊢
      refine runInv_create_move_rewrite dir n rest m' fs {} _ f.ctime f.mtime fs2
        ⟨hbk, hnd, hmem⟩ hdotm hsepm ?_ hmv
      intro g hgn hgc
      unfold Skippable
      rw [hgn, hrsp]
      rw [if_neg (show ¬(lowerStr "png".toList = "jpg".toList ∨
        lowerStr "png".toList = "jpeg".toList) from by decide)]
      rw [if_pos (show lowerStr "png".toList = "png".toList from by decide)]
      rw [hgc]
      simp

theorem processOne_real_inv (world : World) (dir backup_dir n : Str) (rest : List Str) (fs : FS)
    (hdir : ∀ c ∈ dir, c ≠ '.')
    (hinv : RunInv dir (n :: rest) fs)
    (hok : (processOne true world dir backup_dir n fs).err = none) :
    RunInv dir rest (processOne true world dir backup_dir n fs).fs := by
  simp only [processOne] at hok ⊢
  by_cases hc1 : lowerStr (rsplitSuffix n) = "jpg".toList ∨
      lowerStr (rsplitSuffix n) = "jpeg".toList
  · rw [if_pos (show ((lowerStr (rsplitSuffix n) == "jpg".toList
        || lowerStr (rsplitSuffix n) == "jpeg".toList) = true) from by
      rcases hc1 with h | h <;> rw [h] <;> simp)] at hok ⊢
    exact process_jpg_real_inv dir n rest fs hc1 hinv hok
  · have hb1 : (lowerStr (rsplitSuffix n) == "jpg".toList
        || lowerStr (rsplitSuffix n) == "jpeg".toList) = false := by
      rw [beq_eq_false_iff_ne.mpr (fun h => hc1 (Or.inl h)),
        beq_eq_false_iff_ne.mpr (fun h => hc1 (Or.inr h))]
      rfl
    rw [if_neg (by rw [hb1]; decide)] at hok ⊢
    by_cases hc2 : lowerStr (rsplitSuffix n) = "png".toList
    · rw [if_pos (show (lowerStr (rsplitSuffix n) == "png".toList) = true from by
        rw [hc2]; simp)] at hok ⊢
      rcases Option.eq_none_or_eq_some (pathToName dir (winJoin dir n) >>= fs.lookup)
        with hp | ⟨f, hp⟩
      · simp only [hp] at hok
        exact absurd hok (by simp)
      · simp only [hp] at hok ⊢
        exact process_png_real_inv dir n (get_earliest_date_str f EXIF_TIME_FORMAT) rest fs
          hc1 hc2 hinv hok
    · rw [if_neg (by rw [beq_eq_false_iff_ne.mpr hc2]; decide)] at hok ⊢
      by_cases hc3 : lowerStr (rsplitSuffix n) = "gif".toList
      · rw [if_pos (show (lowerStr (rsplitSuffix n) == "gif".toList) = true from by
          rw [hc3]; simp)] at hok ⊢
        exact process_gif_real_inv world dir n backup_dir rest fs hdir hc1 hc2 hc3 hinv hok
      · rw [if_neg (by rw [beq_eq_false_iff_ne.mpr hc3]; decide)] at hok ⊢
        by_cases hc4 : lowerStr (rsplitSuffix n) = "bmp".toList
        · rw [if_pos (show (lowerStr (rsplitSuffix n) == "bmp".toList) = true from by
            rw [hc4]; simp)] at hok ⊢
          rcases Option.eq_none_or_eq_some (pathToName dir (winJoin dir n) >>= fs.lookup)
            with hp | ⟨f, hp⟩
          · simp only [hp] at hok
            exact absurd hok (by simp)
          · simp only [hp] at hok ⊢
            exact process_bmp_real_inv dir n (get_earliest_date_str f EXIF_TIME_FORMAT)
              backup_dir rest fs hdir hc4 hinv hok
        · rw [if_neg (by rw [beq_eq_false_iff_ne.mpr hc4]; decide)] at hok ⊢
          by_cases hc5 : lowerStr (rsplitSuffix n) = "mp4".toList ∨
              lowerStr (rsplitSuffix n) = "m4v".toList
          · rw [if_pos (show ((lowerStr (rsplitSuffix n) == "mp4".toList
                || lowerStr (rsplitSuffix n) == "m4v".toList) = true) from by
              rcases hc5 with h | h <;> rw [h] <;> simp)] at hok ⊢
            exact process_mp4_real_inv world dir n backup_dir rest fs hdir
              hc1 hc2 hc3 hc4 hc5 hinv hok
          · rw [if_neg (by
              rw [beq_eq_false_iff_ne.mpr (fun h => hc5 (Or.inl h)),
                beq_eq_false_iff_ne.mpr (fun h => hc5 (Or.inr h))]
              decide)] at hok ⊢
            by_cases hc6 : lowerStr (rsplitSuffix n) = "mov".toList ∨
                lowerStr (rsplitSuffix n) = "tif".toList ∨
                lowerStr (rsplitSuffix n) = "heic".toList ∨
                lowerStr (rsplitSuffix n) = "webp".toList
            · rw [if_pos (show ((lowerStr (rsplitSuffix n) == "mov".toList
                  || lowerStr (rsplitSuffix n) == "tif".toList
                  || lowerStr (rsplitSuffix n) == "heic".toList
                  || lowerStr (rsplitSuffix n) == "webp".toList) = true) from by
                rcases hc6 with h | h | h | h <;> rw [h] <;> simp)] at hok ⊢
              apply runInv_drop dir n rest fs hinv
              intro g hg hgn
              unfold Skippable
              rw [hgn, if_neg hc1, if_neg hc2, if_neg hc3, if_neg hc4, if_neg hc5, if_pos hc6]
              trivial
            · rw [if_neg (by
                rw [beq_eq_false_iff_ne.mpr (fun h => hc6 (Or.inl h)),
                  beq_eq_false_iff_ne.mpr (fun h => hc6 (Or.inr (Or.inl h))),
                  beq_eq_false_iff_ne.mpr (fun h => hc6 (Or.inr (Or.inr (Or.inl h)))),
                  beq_eq_false_iff_ne.mpr (fun h => hc6 (Or.inr (Or.inr (Or.inr h))))]
                decide)] at hok ⊢
              exact absurd hok (by simp)

theorem runFiles_real_inv (world : World) (dir backup_dir : Str)
    (hdir : ∀ c ∈ dir, c ≠ '.') :
    ∀ ns : List Str, ∀ fs : FS, RunInv dir ns fs →
      (runFiles true world dir backup_dir ns fs).err = none →
      RunInv dir [] (runFiles true world dir backup_dir ns fs).fs := by
  intro ns
  induction ns with
  | nil => intro fs hinv _; exact hinv
  | cons n rest ih =>
    intro fs hinv hok
    rcases Option.eq_none_or_eq_some (processOne true world dir backup_dir n fs).err
      with hre | ⟨e, hre⟩
    · have hstep := processOne_real_inv world dir backup_dir n rest fs hdir hinv hre
      simp only [runFiles, hre] at hok ⊢
      exact ih _ hstep hok
    · simp only [runFiles, hre] at hok
      exact absurd hok (by simp)

theorem mainRun_shape (rr : Bool) (world : World) (dir : Str) (fs fs0 : FS)
    (hfs0 : fs0 = if fs.backupDirExists then fs else { fs with backupDirExists := true }) :
    (mainRun REQUIRED_OS_NAME rr world dir fs).fs
      = (runFiles rr world dir (winJoin dir BACKUP_DIR_NAME)
          (fs0.media.map (fun f => f.name)) fs0).fs ∧
    (mainRun REQUIRED_OS_NAME rr world dir fs).err
      = (runFiles rr world dir (winJoin dir BACKUP_DIR_NAME)
          (fs0.media.map (fun f => f.name)) fs0).err ∧
    (mainRun REQUIRED_OS_NAME rr world dir fs).muts
      = (if fs.backupDirExists then [] else [Mutation.mkdirBackup])
        ++ (runFiles rr world dir (winJoin dir BACKUP_DIR_NAME)
            (fs0.media.map (fun f => f.name)) fs0).muts := by
  by_cases hbk : fs.backupDirExists = true
  · rw [if_pos hbk] at hfs0
    subst hfs0
    simp only [mainRun]
    rw [if_pos (show (REQUIRED_OS_NAME == REQUIRED_OS_NAME) = true from by simp)]
    rw [if_pos hbk, if_pos hbk]
    refine ⟨?_, ?_, ?_⟩ <;> rfl
  · rw [if_neg hbk] at hfs0
    subst hfs0
    simp only [mainRun]
    rw [if_pos (show (REQUIRED_OS_NAME == REQUIRED_OS_NAME) = true from by simp)]
    rw [if_neg hbk, if_neg hbk]
    refine ⟨?_, ?_, ?_⟩ <;> rfl

/-- C2: running the tool twice in real-run mode on the same directory
produces no further mutations on the second pass.  If the first real run
completes without an exception on a well-formed directory, then a second
real run — under any behaviour of the external tools — performs zero
filesystem mutations, leaves the filesystem exactly as the first run left
it, and also completes without an exception: every handler's detection
check short-circuits on the files the first run produced or left. -/
theorem c2_second_real_run_no_mutations (world world2 : World) (dir : Str) (fs : FS)
    (hwf : WellFormedDir dir fs)
    (hok : (mainRun REQUIRED_OS_NAME true world dir fs).err = none) :
    (mainRun REQUIRED_OS_NAME true world2 dir
        (mainRun REQUIRED_OS_NAME true world dir fs).fs).muts = [] ∧
    (mainRun REQUIRED_OS_NAME true world2 dir
        (mainRun REQUIRED_OS_NAME true world dir fs).fs).fs
      = (mainRun REQUIRED_OS_NAME true world dir fs).fs ∧
    (mainRun REQUIRED_OS_NAME true world2 dir
        (mainRun REQUIRED_OS_NAME true world dir fs).fs).err = none := by
  obtain ⟨hdir, hnd, hgood⟩ := hwf
  have hshape1 := mainRun_shape true world dir fs
    (if fs.backupDirExists then fs else { fs with backupDirExists := true }) rfl
  set fs0 : FS := if fs.backupDirExists then fs else { fs with backupDirExists := true }
    with hfs0d
  have hm0 : fs0.media = fs.media := by
    rw [hfs0d]
    by_cases hbk : fs.backupDirExists = true
    · rw [if_pos hbk]
    · rw [if_neg hbk]
  have hb0 : fs0.backupDirExists = true := by
    rw [hfs0d]
    by_cases hbk : fs.backupDirExists = true
    · rw [if_pos hbk]
      exact hbk
    · rw [if_neg hbk]
  have hinv0 : RunInv dir (fs0.media.map (fun f => f.name)) fs0 := by
    refine ⟨hb0, ?_, ?_⟩
    · rw [hm0]
      exact hnd
    · intro g hg
      rw [hm0] at hg
      obtain ⟨h1, h2⟩ := hgood g hg
      refine ⟨h1, h2, Or.inr ?_⟩
      rw [hm0]
      exact List.mem_map_of_mem _ hg
  have hok1 : (runFiles true world dir (winJoin dir BACKUP_DIR_NAME)
      (fs0.media.map (fun f => f.name)) fs0).err = none := by
    rw [← hshape1.2.1]
    exact hok
  have hfin := runFiles_real_inv world dir (winJoin dir BACKUP_DIR_NAME) hdir
    (fs0.media.map (fun f => f.name)) fs0 hinv0 hok1
  rw [← hshape1.1] at hfin
  obtain ⟨hbk2, hnd2, hmem2⟩ := hfin
  have hallskip : ∀ g ∈ (mainRun REQUIRED_OS_NAME true world dir fs).fs.media,
      '\\' ∉ g.name ∧ Skippable dir g := by
    intro g hg
    obtain ⟨_, h2, h3⟩ := hmem2 g hg
    rcases h3 with h3 | h3
    · exact ⟨h2, h3⟩
    · exact absurd h3 (List.not_mem_nil _)
  have hex : ∀ m ∈ (mainRun REQUIRED_OS_NAME true world dir fs).fs.media.map (fun f => f.name),
      ∃ g, (mainRun REQUIRED_OS_NAME true world dir fs).fs.lookup m = some g :=
    fun m hm => lookup_of_mem_names _ m hm
  obtain ⟨logs2, hrf2⟩ := runFiles_all_skip true world2 dir (winJoin dir BACKUP_DIR_NAME)
    ((mainRun REQUIRED_OS_NAME true world dir fs).fs.media.map (fun f => f.name))
    (mainRun REQUIRED_OS_NAME true world dir fs).fs hex hallskip
  have hshape2 := mainRun_shape true world2 dir (mainRun REQUIRED_OS_NAME true world dir fs).fs
    (mainRun REQUIRED_OS_NAME true world dir fs).fs (by rw [if_pos hbk2])
  refine ⟨?_, ?_, ?_⟩
  · rw [hshape2.2.2, if_pos hbk2, hrf2]
    rfl
  · rw [hshape2.1, hrf2]
  · rw [hshape2.2.1, hrf2]

/-- C2 witness: a directory holding a single `a.jpg` without EXIF data; the
first real run assigns the field and rewrites the file, the second is
mutation-free. -/
theorem c2_witness :
    WellFormedDir sampleDir
      (FS.mk [MFile.mk "a.jpg".toList (MediaContent.mk none [] [] none) 5 3] [] false []) ∧
    (mainRun REQUIRED_OS_NAME true trueWorld sampleDir
      (FS.mk [MFile.mk "a.jpg".toList (MediaContent.mk none [] [] none) 5 3] [] false [])).err
      = none ∧
    ((mainRun REQUIRED_OS_NAME true trueWorld sampleDir
        (mainRun REQUIRED_OS_NAME true trueWorld sampleDir
          (FS.mk [MFile.mk "a.jpg".toList (MediaContent.mk none [] [] none) 5 3]
            [] false [])).fs).muts = [] ∧
      (mainRun REQUIRED_OS_NAME true trueWorld sampleDir
        (mainRun REQUIRED_OS_NAME true trueWorld sampleDir
          (FS.mk [MFile.mk "a.jpg".toList (MediaContent.mk none [] [] none) 5 3]
            [] false [])).fs).fs
        = (mainRun REQUIRED_OS_NAME true trueWorld sampleDir
            (FS.mk [MFile.mk "a.jpg".toList (MediaContent.mk none [] [] none) 5 3]
              [] false [])).fs ∧
      (mainRun REQUIRED_OS_NAME true trueWorld sampleDir
        (mainRun REQUIRED_OS_NAME true trueWorld sampleDir
          (FS.mk [MFile.mk "a.jpg".toList (MediaContent.mk none [] [] none) 5 3]
            [] false [])).fs).err = none) :=
  ⟨by unfold WellFormedDir; decide, by decide,
    c2_second_real_run_no_mutations trueWorld trueWorld sampleDir
      (FS.mk [MFile.mk "a.jpg".toList (MediaContent.mk none [] [] none) 5 3] [] false [])
      (by unfold WellFormedDir; decide) (by decide)⟩

-- ## Lemmas: per-handler log lines do not depend on the run mode

theorem process_jpg_logs_rr (r1 r2 : Bool) (dir p : Str) (fs : FS) :
    (process_jpg r1 dir p fs).logs = (process_jpg r2 dir p fs).logs := by
  unfold process_jpg
  rcases Option.eq_none_or_eq_some (pathToName dir p >>= fs.lookup) with hp | ⟨f, hp⟩
  · simp only [hp]
  · simp only [hp]
    rcases Option.eq_none_or_eq_some f.content.exif with hx | ⟨d, hx⟩
    · simp only [hx, DEFAULT_EXIF]
      split <;> split <;> rfl
    · rcases Option.eq_none_or_eq_some d.dateTimeOriginal with hv | ⟨v, hv⟩
      · simp only [hx, hv]
        split <;> split <;> rfl
      · simp only [hx, hv]

theorem process_png_logs_rr (r1 r2 : Bool) (dir p ds : Str) (fs : FS) :
    (process_png r1 dir p ds fs).logs = (process_png r2 dir p ds fs).logs := by
  unfold process_png
  rcases Option.eq_none_or_eq_some (pathToName dir p >>= fs.lookup) with hp | ⟨f, hp⟩
  · simp only [hp]
  · simp only [hp]
    by_cases hct : (f.content.info.any fun kv => kv.1 == "Creation Time".toList) = true
    · rw [if_pos hct, if_pos hct]
    · rw [if_neg hct, if_neg hct]
      split <;> split <;> rfl

theorem process_gif_logs_rr (r1 r2 : Bool) (w1 w2 : World) (dir p b s : Str) (fs : FS) :
    (process_gif r1 w1 dir p b s fs).logs = (process_gif r2 w2 dir p b s fs).logs := by
  unfold process_gif
  by_cases hsk : (("_immich.".toList ++ s).isSuffixOf p) = true
  · rw [if_pos hsk, if_pos hsk]
  · rw [if_neg hsk, if_neg hsk]
    rcases Option.eq_none_or_eq_some (pathToName dir p >>= fs.lookup) with hp | ⟨f, hp⟩
    · simp only [hp]
    · simp only [hp]
      repeat' split
      all_goals rfl

theorem process_mp4_logs_rr (r1 r2 : Bool) (w1 w2 : World) (dir p b s : Str) (fs : FS) :
    (process_mp4 r1 w1 dir p b s fs).logs = (process_mp4 r2 w2 dir p b s fs).logs := by
  unfold process_mp4
  rcases Option.eq_none_or_eq_some (pathToName dir p >>= fs.lookup) with hp | ⟨f, hp⟩
  · simp only [hp]
  · simp only [hp]
    repeat' split
    all_goals rfl

/-- C8 (counterexample): on a directory holding `photo.bmp`, the real run
logs the delegated PNG assignment line that the dry run never emits
(`process_bmp` only calls `process_png` under `if real_run`, source lines
140-143), so not every real-run decision line is also logged in dry-run
mode. -/
theorem c8_counterexample_bmp_real_run_logs_more :
    ((mainRun REQUIRED_OS_NAME true trueWorld sampleDir
        (FS.mk [MFile.mk "photo.bmp".toList (MediaContent.mk none [] [] none) 5 3]
          [] true [])).logs.all
      (fun l => (mainRun REQUIRED_OS_NAME false trueWorld sampleDir
        (FS.mk [MFile.mk "photo.bmp".toList (MediaContent.mk none [] [] none) 5 3]
          [] true [])).logs.contains l)) = false := by
  decide

/-- C8 (amended): per handler invocation on the same filesystem state, a
dry run emits exactly the same log lines as a real run — under any
behaviour of the external tools, and including every abort path — for
every file except one whose lowercased extension is `bmp`: the BMP
handler's real run additionally emits the delegated PNG handler's
assignment line.  (Whole-run log equality additionally requires that no
real-run mutation changes the state a later handler reads.) -/
theorem c8_amended_per_file_log_equality (world world2 : World) (dir backup_dir n : Str) (fs : FS)
    (hb : lowerStr (rsplitSuffix n) ≠ "bmp".toList) :
    (processOne false world dir backup_dir n fs).logs
      = (processOne true world2 dir backup_dir n fs).logs := by
  simp only [processOne]
  by_cases hc1 : lowerStr (rsplitSuffix n) = "jpg".toList ∨
      lowerStr (rsplitSuffix n) = "jpeg".toList
  · have h1 : ((lowerStr (rsplitSuffix n) == "jpg".toList
        || lowerStr (rsplitSuffix n) == "jpeg".toList) = true) := by
      rcases hc1 with h | h <;> rw [h] <;> simp
    rw [if_pos h1, if_pos h1]
    rw [process_jpg_logs_rr false true dir (winJoin dir n) fs]
  · have h1 : ¬((lowerStr (rsplitSuffix n) == "jpg".toList
        || lowerStr (rsplitSuffix n) == "jpeg".toList) = true) := by
      rw [beq_eq_false_iff_ne.mpr (fun h => hc1 (Or.inl h)),
        beq_eq_false_iff_ne.mpr (fun h => hc1 (Or.inr h))]
      decide
    rw [if_neg h1, if_neg h1]
    by_cases hc2 : lowerStr (rsplitSuffix n) = "png".toList
    · have h2 : ((lowerStr (rsplitSuffix n) == "png".toList) = true) := by
        rw [hc2]
        simp
      rw [if_pos h2, if_pos h2]
      rcases Option.eq_none_or_eq_some (pathToName dir (winJoin dir n) >>= fs.lookup)
        with hp | ⟨f, hp⟩
      · simp only [hp]
      · simp only [hp]
        rw [process_png_logs_rr false true dir (winJoin dir n)
          (get_earliest_date_str f EXIF_TIME_FORMAT) fs]
    · have h2 : ¬((lowerStr (rsplitSuffix n) == "png".toList) = true) := by
        rw [beq_eq_false_iff_ne.mpr hc2]
        decide
      rw [if_neg h2, if_neg h2]
      by_cases hc3 : lowerStr (rsplitSuffix n) = "gif".toList
      · have h3 : ((lowerStr (rsplitSuffix n) == "gif".toList) = true) := by
          rw [hc3]
          simp
        rw [if_pos h3, if_pos h3]
        rw [process_gif_logs_rr false true world world2 dir (winJoin dir n) backup_dir
          (rsplitSuffix n) fs]
      · have h3 : ¬((lowerStr (rsplitSuffix n) == "gif".toList) = true) := by
          rw [beq_eq_false_iff_ne.mpr hc3]
          decide
        rw [if_neg h3, if_neg h3]
        by_cases hc4 : lowerStr (rsplitSuffix n) = "bmp".toList
        · exact absurd hc4 hb
        · have h4 : ¬((lowerStr (rsplitSuffix n) == "bmp".toList) = true) := by
            rw [beq_eq_false_iff_ne.mpr hc4]
            decide
          rw [if_neg h4, if_neg h4]
          by_cases hc5 : lowerStr (rsplitSuffix n) = "mp4".toList ∨
              lowerStr (rsplitSuffix n) = "m4v".toList
          · have h5 : ((lowerStr (rsplitSuffix n) == "mp4".toList
                || lowerStr (rsplitSuffix n) == "m4v".toList) = true) := by
              rcases hc5 with h | h <;> rw [h] <;> simp
            rw [if_pos h5, if_pos h5]
            rw [process_mp4_logs_rr false true world world2 dir (winJoin dir n) backup_dir
              (rsplitSuffix n) fs]
          · have h5 : ¬((lowerStr (rsplitSuffix n) == "mp4".toList
                || lowerStr (rsplitSuffix n) == "m4v".toList) = true) := by
              rw [beq_eq_false_iff_ne.mpr (fun h => hc5 (Or.inl h)),
                beq_eq_false_iff_ne.mpr (fun h => hc5 (Or.inr h))]
              decide
            rw [if_neg h5, if_neg h5]

/-- C8 witness: a JPEG without EXIF data logs the same lines in both
modes. -/
theorem c8_witness :
    (lowerStr (rsplitSuffix "a.jpg".toList) ≠ "bmp".toList) ∧
    (processOne false trueWorld sampleDir (winJoin sampleDir BACKUP_DIR_NAME) "a.jpg".toList
        (FS.mk [MFile.mk "a.jpg".toList (MediaContent.mk none [] [] none) 5 3] [] true [])).logs
      = (processOne true trueWorld sampleDir (winJoin sampleDir BACKUP_DIR_NAME) "a.jpg".toList
        (FS.mk [MFile.mk "a.jpg".toList (MediaContent.mk none [] [] none) 5 3] [] true [])).logs :=
  ⟨by decide, c8_amended_per_file_log_equality trueWorld trueWorld sampleDir
    (winJoin sampleDir BACKUP_DIR_NAME) "a.jpg".toList
    (FS.mk [MFile.mk "a.jpg".toList (MediaContent.mk none [] [] none) 5 3] [] true [])
    (by decide)⟩
